import Mathlib

/-!
Verification of the `persist` archive engine against its specification.

The repository ships the archive engine (`persist.archive`) together with
documentation notebooks showing rendered archives.  The engine turns a
collection of named Python objects into re-executable source code: a graph
builder walks the object graph, deduplicates shared sub-objects, rejects
cycles, and produces a topologically ordered emission plan; a code emitter
renders the plan in a flat or a scoped format; large numeric arrays are
lifted into an out-of-band sidecar keyed `array_0`, `array_1`, ….

The Python implementation module itself is not part of the sources
available here, so the engine is modelled from the specification: object
graphs are heaps mapping object identities to objects, the builder is a
depth-first traversal with an in-progress path for cycle detection, and
the emitted source is a list of statements with an executable semantics
(`execStmts`) playing the role of Python's `exec`.  All definitions are
executable so that concrete archives can be checked by evaluation.
-/

namespace Persist

/-- Object identity: Python's `id()` of an object, the identity key under
which shared sub-objects collapse to a single graph node. -/
abbrev ObjId := Nat

/-- Atomic constants usable inside `__getnewargs__` tuples and
`__getstate__` dictionaries of user objects. -/
inductive Atom where
  | aint (n : Int)
  | astr (s : String)
deriving DecidableEq, Repr

/-- Modelled from the spec: the supported value kinds of the archive engine
(§4.A): integers (primitives), `range` objects, lists (ordered
containers), numeric arrays, and user objects following the pickle-style
reconstitution protocol (`__getnewargs__` / `__getstate__` /
`__setstate__`, plus the ignored legacy `__getinitargs__`). -/
inductive Obj where
  | oint (n : Int)
  | orange (a b : Int)
  | olist (elems : List ObjId)
  | oarr (elems : List Int)
  | ouser (modpath cls : String) (newargs : List Atom)
      (state : List (String × Atom)) (has_setstate : Bool) (has_getinitargs : Bool)
deriving DecidableEq, Repr

/-- The sub-objects referenced by an object (the semantic edge list of its
rep triple).  Only containers hold references; atoms of user objects are
constants, not edges. -/
def Obj.children : Obj → List ObjId
  | .olist es => es
  | _ => []

/-- An object graph: a finite map from object identity to object. -/
abbrev Heap := List (ObjId × Obj)

/-- The identities bound in a heap. -/
def Heap.keys (h : Heap) : List ObjId := h.map Prod.fst

/-- Heap lookup by object identity. -/
def Heap.find? (h : Heap) (i : ObjId) : Option Obj := List.lookup i h

/-- The edge relation of the reference graph: `edge h a b` holds when the
object at `a` directly references the object at `b`. -/
def edge (h : Heap) (a b : ObjId) : Prop :=
  ∃ o, h.find? a = some o ∧ b ∈ o.children

/-- Reachability in the reference graph. -/
def Reaches (h : Heap) : ObjId → ObjId → Prop := Relation.ReflTransGen (edge h)

/-- A cycle in the reference graph through the identity `z`. -/
def CycleAt (h : Heap) (z : ObjId) : Prop := Relation.TransGen (edge h) z z

/-- Errors of the archive engine (§7). -/
inductive Err where
  | cyclic
  | notRepresentable
  | noFuel
  | unboundFreeIdentifier
  | corruptArchive
  | badState
  | nameCollision
deriving DecidableEq, Repr

/-- Modelled from the spec: the graph builder's depth-first visit (§4.B).
`path` is the in-progress set (the chain of ancestors currently being
expanded); re-entering it signals a cycle.  `done` is the emission plan
built so far: a node is appended after all of its children, so the plan
lists every definition before its uses.  `fuel` only bounds the recursion
depth; `buildPlan` supplies enough for any heap. -/
def visitOne (h : Heap) : Nat → List ObjId → List ObjId → ObjId → Except Err (List ObjId)
  | 0, _, _, _ => .error .noFuel
  | fuel + 1, path, done, c =>
    if c ∈ done then .ok done
    else if c ∈ path then .error .cyclic
    else match h.find? c with
      | none => .error .notRepresentable
      | some o =>
        match o.children.foldlM (visitOne h fuel (c :: path)) done with
        | .error e => .error e
        | .ok d => .ok (d ++ [c])

/-- Modelled from the spec: the graph builder (§4.B, §4.C).  Walks each
top-level value in insertion order and returns the emission plan, a list
of object identities in which every node follows all of its children. -/
def buildPlan (h : Heap) (tops : List ObjId) : Except Err (List ObjId) :=
  tops.foldlM (visitOne h (h.length + 1) []) []

/-- Source-level expressions of the emitted module.  Container literals
refer to their elements purely by name, since the builder turns every
sub-object into its own named node. -/
inductive Expr where
  | eint (n : Int)
  | erange (a b : Int)
  | elist (names : List String)
  | earr (es : List Int)
  | earrRef (k : Nat)
  | enew (modpath cls : String) (args : List Atom)
deriving DecidableEq, Repr

/-- Statements of the emitted module: imports, plain assignments, the
scoped `def name(…deps…): … ; name = name()` form, the post-assignment
state application calls of the pickle protocol, `del` of an intermediate
name, the guarded trailing cleanup, and the single-item module-table
replacement. -/
inductive Stmt where
  | fromImport (modpath qualname localAlias : String)
  | assign (name : String) (e : Expr)
  | scopedAssign (name : String) (params : List (String × String)) (body : Expr)
  | setst (name : String) (state : List (String × Atom))
  | dictUpd (name : String) (state : List (String × Atom))
  | sdel (name : String)
  | cleanup
  | moduleRep (name : String)
deriving DecidableEq, Repr

/-- A symbol-import record `(module_path, qualified_name, local_alias)`. -/
abbrev ImportR := String × String × String

/-- The decimal digit characters. -/
def digChar : Nat → Char
  | 0 => '0' | 1 => '1' | 2 => '2' | 3 => '3' | 4 => '4'
  | 5 => '5' | 6 => '6' | 7 => '7' | 8 => '8' | _ => '9'

/-- Decimal numeral of a natural number (the printed form of generated
name counters and sidecar keys). -/
def natStr (n : Nat) : String :=
  if n = 0 then "0" else ⟨(Nat.digits 10 n).reverse.map digChar⟩

/-- The emitted name of a node: top-level nodes keep their user-given
name, other nodes receive a generated identifier `_gN` where N is the
node's plan position (§4.C). -/
def nameOf (tops : List (String × ObjId)) (plan : List ObjId) (i : ObjId) : String :=
  match tops.find? (fun p => p.2 == i) with
  | some p => p.1
  | none => "_g" ++ natStr (plan.indexOf i)

/-- True when an array must be lifted into the sidecar: the element count
is at least the configured `array_threshold` (default `none`, meaning
never). -/
def isLarge (th : Option Nat) (len : Nat) : Bool :=
  match th with
  | none => false
  | some t => decide (t ≤ len)

/-- Modelled from the spec: the representation registry (§4.A).  Maps an
object to its expression and its post-assignment statements; `scpos` is
the number of sidecar entries registered so far, so a newly registered
large array receives the next dense zero-based key. -/
def repNode (th : Option Nat) (nm : String) (childName : ObjId → String)
    (scpos : Nat) : Obj → Expr × List Stmt
  | .oint n => (.eint n, [])
  | .orange a b => (.erange a b, [])
  | .olist es => (.elist (es.map childName), [])
  | .oarr es =>
    if isLarge th es.length then (.earrRef scpos, []) else (.earr es, [])
  | .ouser m c args st hs _hg =>
    (.enew m c args, [if hs then .setst nm st else .dictUpd nm st])

/-- Whether an object is registered with the sidecar. -/
def isLargeArr (th : Option Nat) : Obj → Bool
  | .oarr es => isLarge th es.length
  | _ => false

/-- The sidecar store of an archive: the payloads of the large arrays in
first-encounter (plan) order; position k is the payload of `array_k`. -/
def sidecarOf (h : Heap) (th : Option Nat) (plan : List ObjId) : List (List Int) :=
  plan.filterMap (fun i =>
    match h.find? i with
    | some (.oarr es) => if isLarge th es.length then some es else none
    | _ => none)

/-- The import records required by one object. -/
def objImports : Obj → List ImportR
  | .orange _ _ => [("builtins", "range", "_range")]
  | .ouser m c _ _ _ _ => [(m, c, c)]
  | _ => []

/-- Accumulate import records, keeping the first occurrence of each. -/
def addImports (acc news : List ImportR) : List ImportR :=
  news.foldl (fun a r => if r ∈ a then a else a ++ [r]) acc

/-- The imports of a plan, in first-encounter order, deduplicated. -/
def importsOf (h : Heap) (plan : List ObjId) : List ImportR :=
  plan.foldl (fun acc i =>
    match h.find? i with
    | none => acc
    | some o => addImports acc (objImports o)) []

/-- The scoped form of a node: reference-holding and import-needing nodes
are wrapped in an immediately-invoked nullary function whose defaulted
parameters capture the dependencies (§4.D). -/
def scopedOf (nm : String) : Expr → Stmt
  | .elist names =>
    let params := names.enum.map (fun p => ("_l_" ++ natStr p.1, p.2))
    .scopedAssign nm params (.elist (params.map Prod.fst))
  | .erange a b => .scopedAssign nm [] (.erange a b)
  | .enew m c args => .scopedAssign nm [] (.enew m c args)
  | e => .assign nm e

/-- Modelled from the spec: the code-emission body (§4.D).  One
assignment (plus the node's post-assignment statements) per plan node,
threading the count of sidecar entries registered so far. -/
def bodyAux (h : Heap) (th : Option Nat) (tops : List (String × ObjId))
    (plan : List ObjId) (scp : Bool) : Nat → List ObjId → List Stmt
  | _, [] => []
  | scpos, i :: rest =>
    match h.find? i with
    | none => bodyAux h th tops plan scp scpos rest
    | some o =>
      let nm := nameOf tops plan i
      let r := repNode th nm (nameOf tops plan) scpos o
      let asg := if scp then scopedOf nm r.1 else Stmt.assign nm r.1
      (asg :: r.2) ++ bodyAux h th tops plan scp (scpos + (if isLargeArr th o then 1 else 0)) rest

/-- The emitted body of a plan. -/
def mkBody (h : Heap) (th : Option Nat) (tops : List (String × ObjId))
    (plan : List ObjId) (scp : Bool) : List Stmt :=
  bodyAux h th tops plan scp 0 plan

/-- The generated (non-top-level) intermediate names of a plan. -/
def genNames (tops : List (String × ObjId)) (plan : List ObjId) : List String :=
  plan.filterMap (fun i =>
    match tops.find? (fun p => p.2 == i) with
    | some _ => none
    | none => some (nameOf tops plan i))

/-- Modelled from the spec: flat-mode emission (§4.D).  Imports are
hoisted to the top, the body follows, every import alias and generated
intermediate name is `del`-ed, and the guarded cleanup ends the module. -/
def renderFlatStmts (h : Heap) (th : Option Nat) (tops : List (String × ObjId)) :
    Except Err (List Stmt × List (List Int)) := do
  let plan ← buildPlan h (tops.map Prod.snd)
  let imps := importsOf h plan
  .ok (imps.map (fun r => Stmt.fromImport r.1 r.2.1 r.2.2)
        ++ mkBody h th tops plan false
        ++ imps.map (fun r => Stmt.sdel r.2.2)
        ++ (genNames tops plan).map Stmt.sdel
        ++ [Stmt.cleanup],
      sidecarOf h th plan)

/-- Modelled from the spec: scoped-mode emission (§4.D).  Each node is
wrapped scoped; imports live inside the wrapping functions, so no
top-level import statements or alias deletions are needed. -/
def renderScopedStmts (h : Heap) (th : Option Nat) (tops : List (String × ObjId)) :
    Except Err (List Stmt × List (List Int)) := do
  let plan ← buildPlan h (tops.map Prod.snd)
  .ok (mkBody h th tops plan true ++ (genNames tops plan).map Stmt.sdel ++ [Stmt.cleanup],
      sidecarOf h th plan)

/-- A namespace binding: either a value (an object identity in the heap
being built), or a non-value binding such as an imported symbol, the
injected `__builtins__`, or the ambient `_arrays` lookup. -/
inductive Bnd where
  | val (i : ObjId)
  | special
deriving DecidableEq, Repr

/-- An execution namespace, insertion-ordered like a Python module dict. -/
abbrev Ns := List (String × Bnd)

/-- Bind a name, updating in place if present, appending otherwise. -/
def nsSet (ns : Ns) (n : String) (v : Bnd) : Ns :=
  if ns.any (fun p => p.1 == n) then ns.map (fun p => if p.1 == n then (n, v) else p)
  else ns ++ [(n, v)]

/-- Remove a binding if present (Python `del` guarded by `NameError`). -/
def nsDel (ns : Ns) (n : String) : Ns := ns.eraseP (fun p => p.1 == n)

/-- The state of an execution: the heap of objects constructed so far, the
next fresh object identity, and the namespace. -/
structure ES where
  heap : Heap
  next : Nat
  ns : Ns
deriving DecidableEq, Repr

/-- Allocate a fresh object. -/
def ES.alloc (es : ES) (o : Obj) : ES × ObjId :=
  ({ es with heap := es.heap ++ [(es.next, o)], next := es.next + 1 }, es.next)

/-- Resolve a name to an object identity; anything else is an unbound (or
non-value) free identifier. -/
def lookupVal (ns : Ns) (n : String) : Except Err ObjId :=
  match List.lookup n ns with
  | some (.val i) => .ok i
  | _ => .error .unboundFreeIdentifier

/-- Evaluate an expression: atoms and containers allocate a fresh object,
names are resolved in the namespace (preserving sharing), and sidecar
subscripts read the ambient `arrays` mapping. -/
def evalExpr (arrays : List (List Int)) (es : ES) : Expr → Except Err (ES × ObjId)
  | .eint n => .ok (es.alloc (.oint n))
  | .erange a b => .ok (es.alloc (.orange a b))
  | .earr l => .ok (es.alloc (.oarr l))
  | .earrRef k =>
    match arrays[k]? with
    | some l => .ok (es.alloc (.oarr l))
    | none => .error .corruptArchive
  | .elist names => do
    let ids ← names.mapM (lookupVal es.ns)
    .ok (es.alloc (.olist ids))
  | .enew m c args => .ok (es.alloc (.ouser m c args [] false false))

/-- Python `dict.update`: existing keys are overwritten, new keys appended. -/
def mergeState (old new : List (String × Atom)) : List (String × Atom) :=
  old.filter (fun p => !((new.map Prod.fst).contains p.1)) ++ new

/-- Apply a state transformation to a user object. -/
def setObjState (f : List (String × Atom) → List (String × Atom)) :
    Obj → Except Err Obj
  | .ouser m c a st hs hg => .ok (.ouser m c a (f st) hs hg)
  | _ => .error .badState

/-- Update the object bound at an identity. -/
def heapUpd (h : Heap) (i : ObjId) (f : Obj → Except Err Obj) : Except Err Heap :=
  match h with
  | [] => .error .badState
  | (j, o) :: t =>
    if j = i then do .ok ((j, ← f o) :: t)
    else do .ok ((j, o) :: (← heapUpd t i f))

/-- Execute one statement (the semantics of the emitted module). -/
def execStmt (arrays : List (List Int)) (es : ES) : Stmt → Except Err ES
  | .fromImport _ _ a => .ok { es with ns := nsSet es.ns a .special }
  | .assign n e => do
    let r ← evalExpr arrays es e
    .ok { r.1 with ns := nsSet r.1.ns n (.val r.2) }
  | .scopedAssign n params body => do
    let locs ← params.mapM (fun p => do pure (p.1, Bnd.val (← lookupVal es.ns p.2)))
    let r ← evalExpr arrays { es with ns := locs } body
    .ok { heap := r.1.heap, next := r.1.next, ns := nsSet es.ns n (.val r.2) }
  | .setst n st => do
    let i ← lookupVal es.ns n
    let h' ← heapUpd es.heap i (setObjState (fun _ => st))
    .ok { es with heap := h' }
  | .dictUpd n st => do
    let i ← lookupVal es.ns n
    let h' ← heapUpd es.heap i (setObjState (fun old => mergeState old st))
    .ok { es with heap := h' }
  | .sdel n => .ok { es with ns := nsDel es.ns n }
  | .cleanup => .ok { es with ns := nsDel (nsDel es.ns "__builtins__") "_arrays" }
  | .moduleRep _ => .ok es

/-- Execute a statement list from a given state. -/
def execStmts (arrays : List (List Int)) (es : ES) (l : List Stmt) : Except Err ES :=
  l.foldlM (execStmt arrays) es

/-- The fresh namespace a consumer executes the source in: Python's `exec`
injects `__builtins__`, and the consumer binds the ambient `_arrays`. -/
def initES : ES := ⟨[], 0, [("__builtins__", .special), ("_arrays", .special)]⟩

/-- Execute an emitted module from a fresh namespace. -/
def execSource (arrays : List (List Int)) (l : List Stmt) : Except Err ES :=
  execStmts arrays initES l

/-- The unfolding of an object graph into a tree, up to a depth bound;
`tbad` marks an exhausted bound or a dangling reference.  Two acyclic
graphs are structurally equal exactly when their unfoldings agree at
every depth.  Flags of user objects are class properties, not state, and
do not take part in structural equality. -/
inductive PTree where
  | tint (n : Int)
  | trange (a b : Int)
  | tlist (ts : List PTree)
  | tarr (es : List Int)
  | tuser (modpath cls : String) (args : List Atom) (state : List (String × Atom))
  | tbad
deriving Repr

/-- Unfold the object at `i` into a tree, spending one unit of depth per
level. -/
def unfoldObj (h : Heap) : Nat → ObjId → PTree
  | 0, _ => .tbad
  | fuel + 1, i =>
    match h.find? i with
    | none => .tbad
    | some (.oint n) => .tint n
    | some (.orange a b) => .trange a b
    | some (.olist es) => .tlist (es.map (fun c => unfoldObj h fuel c))
    | some (.oarr es) => .tarr es
    | some (.ouser m c args st _ _) => .tuser m c args st

/-- Rename the references held by an object and normalize its class-level
flags to the form `evalExpr` creates. -/
def renameObj (f : ObjId → ObjId) : Obj → Obj
  | .olist es => .olist (es.map f)
  | .ouser m c a st _ _ => .ouser m c a st false false
  | o => o

/-- The canonical heap produced by executing an emitted archive: the k-th
plan node is reconstructed as object identity k, with its references
renamed to plan positions. -/
def newHeap (h : Heap) (plan : List ObjId) : Heap :=
  plan.enum.map (fun p =>
    (p.1, renameObj (fun c => plan.indexOf c) ((h.find? p.2).getD (.oint 0))))

/-- The canonical final namespace: exactly the user-visible top-level
names, in plan order, each bound to its plan position. -/
def finalNs (tops : List (String × ObjId)) (plan : List ObjId) : Ns :=
  plan.filterMap (fun i =>
    (tops.find? (fun p => p.2 == i)).map (fun p => (p.1, Bnd.val (plan.indexOf i))))

/-- The namespace bindings produced by executing the body statements of
the plan prefix `pre`: every emitted node name bound to its plan
position. -/
def planNs (tops : List (String × ObjId)) (plan pre : List ObjId) : Ns :=
  pre.map (fun i => (nameOf tops plan i, Bnd.val (plan.indexOf i)))

/-- The number of sidecar entries registered while emitting a prefix. -/
def scCount (h : Heap) (th : Option Nat) (pre : List ObjId) : Nat :=
  (sidecarOf h th pre).length

/-- The namespace bindings created by executing the import statements. -/
def importNs (imps : List ImportR) : Ns := imps.map (fun r => (r.2.2, Bnd.special))

/-- The names deleted at the end of a flat module: import aliases,
generated intermediate names, and the guarded `__builtins__` / `_arrays`
cleanup pair. -/
def delList (h : Heap) (tops : List (String × ObjId)) (plan : List ObjId) : List String :=
  (importsOf h plan).map (fun r => r.2.2) ++ genNames tops plan ++ ["__builtins__", "_arrays"]


/-- Modelled from the spec: the module name used by `Archive.save` — the
explicit argument when given, else the name of the single top-level
binding when single-item mode is set (§4.D, notebook `DataSet Format`). -/
def saveName (single_item : Bool) (tops : List (String × ObjId)) :
    Option String → Except Err String
  | some n => .ok n
  | none =>
    match single_item, tops with
    | true, [p] => .ok p.1
    | _, _ => .error .nameCollision

/-- Modelled from the spec: `Archive.save` as seen by a later import — the
flat rendering, with the module-table replacement appended when the
archive holds exactly one binding and single-item mode is set (§4.D). -/
def saveStmts (single_item : Bool) (h : Heap) (th : Option Nat)
    (tops : List (String × ObjId)) : Except Err (List Stmt × List (List Int)) := do
  let r ← renderFlatStmts h th tops
  match single_item, tops with
  | true, [p] => .ok (r.1 ++ [Stmt.moduleRep p.1], r.2)
  | _, _ => .ok r

/-- The observable result of importing a saved archive: either a module
wrapper exposing the namespace, or — in single-item mode — the stored
object itself. -/
inductive ImportResult where
  | modWrapper (ns : Ns)
  | objResult (i : ObjId)
deriving DecidableEq, Repr

/-- Import a saved archive module: execute its source; if the module ends
with the module-table replacement, the import yields the stored object
rather than a module wrapper. -/
def importSaved (arrays : List (List Int)) (stmts : List Stmt) :
    Except Err (Heap × ImportResult) := do
  let es ← execSource arrays stmts
  match stmts.getLast? with
  | some (.moduleRep n) => do
    let i ← lookupVal es.ns n
    .ok (es.heap, .objResult i)
  | _ => .ok (es.heap, .modWrapper es.ns)

/-- Print an atomic constant in Python literal form. -/
def printAtom : Atom → String
  | .aint n => toString n
  | .astr s => "\x27" ++ s ++ "\x27"

/-- Print a state dictionary in Python literal form. -/
def printDict (st : List (String × Atom)) : String :=
  "\x7b" ++ String.intercalate ", " (st.map (fun p => "\x27" ++ p.1 ++ "\x27: " ++ printAtom p.2)) ++ "\x7d"

/-- Print an expression as Python source. -/
def printExpr : Expr → String
  | .eint n => toString n
  | .erange a b => "_range(" ++ toString a ++ ", " ++ toString b ++ ")"
  | .elist names => "[" ++ String.intercalate ", " names ++ "]"
  | .earr es => "array([" ++ String.intercalate ", " (es.map toString) ++ "])"
  | .earrRef k => "_arrays[\x27array_" ++ toString k ++ "\x27]"
  | .enew _ c args =>
    c ++ ".__new__(" ++ String.intercalate ", " (c :: args.map printAtom) ++ ")"

/-- Print one statement as Python source. -/
def printStmt : Stmt → String
  | .fromImport m q a =>
    if q == a then "from " ++ m ++ " " ++ "import " ++ q
    else "from " ++ m ++ " " ++ "import " ++ q ++ " as " ++ a
  | .assign n e => n ++ " = " ++ printExpr e
  | .scopedAssign n params body =>
    "def " ++ n ++ "(" ++ String.intercalate "," (params.map (fun p => p.1 ++ "=" ++ p.2))
      ++ "):\n    return " ++ printExpr body ++ "\n" ++ n ++ " = " ++ n ++ "()"
  | .setst n st => n ++ ".__setstate__(" ++ printDict st ++ ")"
  | .dictUpd n st => n ++ ".__dict__.update(" ++ printDict st ++ ")"
  | .sdel n => "del " ++ n
  | .cleanup => "try: del __builtins__, _arrays\nexcept NameError: pass"
  | .moduleRep n => "sys.modules[__name__] = " ++ n

/-- Print the emitted module, one statement per line. -/
def printSource (stmts : List Stmt) : String :=
  String.intercalate "\n" (stmts.map printStmt) ++ "\n"

/-- Modelled from the spec: the archive façade and its configuration
record (§4.F).  `arch` is the insertion-ordered sequence of top-level
bindings; values live in the ambient heap. -/
structure Archive where
  scopedMode : Bool := true
  array_threshold : Option Nat := none
  data_name : String := "_arrays"
  single_item_mode : Bool := false
  arch : List (String × ObjId) := []
deriving DecidableEq, Repr

/-- Modelled from the spec: `insert` — validate the name (reject
collisions with prior inserts and with the reserved prefix `_`), record
in insertion order (§4.F). -/
def Archive.insertItem (ar : Archive) (n : String) (i : ObjId) : Except Err Archive :=
  if ar.arch.any (fun p => p.1 == n) || n.startsWith "_" then .error .nameCollision
  else .ok { ar with arch := ar.arch ++ [(n, i)] }

/-- Render an archive to statements plus sidecar, in the configured mode. -/
def Archive.renderStmts (ar : Archive) (h : Heap) :
    Except Err (List Stmt × List (List Int)) :=
  if ar.scopedMode then renderScopedStmts h ar.array_threshold ar.arch
  else renderFlatStmts h ar.array_threshold ar.arch

/-- The string representation of an archive (`str(archive)`). -/
def Archive.toSource (ar : Archive) (h : Heap) : Except Err String :=
  (ar.renderStmts h).map (fun r => printSource r.1)

/-- The sidecar data of an archive (`Archive.data`), keyed by position:
entry k holds the payload of `array_k`. -/
def Archive.sidecar (ar : Archive) (h : Heap) : Except Err (List (List Int)) :=
  (ar.renderStmts h).map Prod.snd

/-- Modelled from the spec: `Archive.save` — resolve the module name
(defaulting to the single item's name), render flat with the single-item
module-table replacement when configured. -/
def Archive.save (ar : Archive) (h : Heap) (nameArg : Option String) :
    Except Err (String × List Stmt × List (List Int)) := do
  let n ← saveName ar.single_item_mode ar.arch nameArg
  let r ← saveStmts ar.single_item_mode h ar.array_threshold ar.arch
  .ok (n, r)

/-- Class-name hygiene for one object: the class name of a user object is
a plain (non-underscore) identifier distinct from every top-level name. -/
def objClsOK (tops : List (String × ObjId)) : Obj → Bool
  | .ouser _ c _ _ _ _ => (c.data.head? != some '_') && tops.all (fun p => p.1 != c)
  | _ => true

/-- A well-formed object graph: identities are unique and every reference
has a binding (the transitive closure of the inserted values lives in the
heap). -/
def ClosedHeap (h : Heap) : Prop :=
  (h.map Prod.fst).Nodup ∧ ∀ q ∈ h, ∀ c ∈ q.2.children, (h.find? c).isSome

/-- Insert-time name discipline of the façade (§4.F): distinct top-level
names, distinct top-level identities bound in the heap, no reserved
`_`-prefixed user name, and hygienic class names. -/
def NamesOK (h : Heap) (tops : List (String × ObjId)) : Prop :=
  (tops.map Prod.fst).Nodup ∧ (tops.map Prod.snd).Nodup ∧
  (∀ p ∈ tops, p.2 ∈ h.keys ∧ p.1.data.head? ≠ some '_') ∧
  (∀ q ∈ h, objClsOK tops q.2 = true)

/-- Alias hygiene: the local aliases of the plan's deduplicated imports
are pairwise distinct (two distinct imported symbols never share an
alias). -/
def AliasesOK (h : Heap) (plan : List ObjId) : Prop :=
  ((importsOf h plan).map (fun r => r.2.2)).Nodup

instance decNamesOK (h : Heap) (tops : List (String × ObjId)) : Decidable (NamesOK h tops) :=
  inferInstanceAs (Decidable ((tops.map Prod.fst).Nodup ∧ (tops.map Prod.snd).Nodup ∧
    (∀ p ∈ tops, p.2 ∈ h.keys ∧ p.1.data.head? ≠ some '_') ∧
    (∀ q ∈ h, objClsOK tops q.2 = true)))

instance decClosedHeap (h : Heap) : Decidable (ClosedHeap h) :=
  inferInstanceAs (Decidable ((h.map Prod.fst).Nodup ∧
    ∀ q ∈ h, ∀ c ∈ q.2.children, (h.find? c).isSome))

instance decAliasesOK (h : Heap) (plan : List ObjId) : Decidable (AliasesOK h plan) :=
  inferInstanceAs (Decidable (((importsOf h plan).map (fun r : ImportR => r.2.2)).Nodup))

/-- Topological soundness of an emission plan: every reference of an
emitted node points to a strictly earlier plan entry. -/
def ordered (h : Heap) (l : List ObjId) : Prop :=
  ∀ (p : Nat) (x : ObjId), l[p]? = some x → ∀ c, edge h x c →
    ∃ q : Nat, q < p ∧ l[q]? = some c

/-- The builder's in-progress path is a descending chain: each element is
a direct reference of its successor. -/
def pchain (h : Heap) : List ObjId → Prop
  | [] => True
  | [_] => True
  | a :: b :: t => edge h b a ∧ pchain h (b :: t)

/-- A concrete example graph (notebook `DataSet Format`): `a = 1`,
`x = range(0, 2)`, an unnamed shared `range(0, 3)`, and `b = [x, y, y]`
holding the shared reference twice. -/
def exHeap : Heap :=
  [(10, .oint 1), (11, .orange 0 2), (12, .orange 0 3), (13, .olist [11, 12, 12])]

/-- The top-level bindings of the example graph, in insertion order. -/
def exTops : List (String × ObjId) := [("a", 10), ("x", 11), ("b", 13)]

/-- The emission plan the builder produces for the example graph. -/
def exPlan : List ObjId := [10, 11, 12, 13]

/-- A cyclic example graph: a list appended to itself. -/
def cycHeap : Heap := [(7, .olist [7])]

/-- The top-level binding of the cyclic example. -/
def cycTops : List (String × ObjId) := [("a", 7)]

/-- An array example: one array at the threshold and one below it. -/
def arrHeap : Heap := [(0, .oarr [1, 2, 3]), (1, .oarr [9])]

/-- The top-level bindings of the array example. -/
def arrTops : List (String × ObjId) := [("u", 0), ("v", 1)]

/-- A single-binding example for single-item mode. -/
def oneHeap : Heap := [(4, .olist []), (5, .oint 2)]

/-- The single top-level binding of `oneHeap`'s archive. -/
def oneTops : List (String × ObjId) := [("b", 4)]

/-- An example flat-mode archive configuration over `exTops`. -/
def exArchive1 : Archive :=
  { scopedMode := false, array_threshold := some 2, data_name := "_arrays",
    single_item_mode := false, arch := exTops }

/-- A configuration agreeing with `exArchive1` on mode, threshold and
bindings but differing in the remaining fields. -/
def exArchive2 : Archive :=
  { scopedMode := false, array_threshold := some 2, data_name := "d",
    single_item_mode := true, arch := exTops }

/-- A single-item-mode archive holding one binding. -/
def exArchive3 : Archive := { single_item_mode := true, arch := oneTops }

/-! ### Basic lemmas: folds over `Except`, numerals, name hygiene -/

theorem foldlM_ok_inv {α β E : Type} {f : List α → β → Except E (List α)}
    {P : List α → Prop} (hf : ∀ a x d, P a → f a x = .ok d → P d) :
    ∀ cs a d, P a → List.foldlM f a cs = .ok d → P d := by
  intro cs
  induction cs with
  | nil => intro a d ha hfold; exact Except.ok.inj hfold ▸ ha
  | cons x xs ih =>
    intro a d ha hfold
    rw [List.foldlM_cons] at hfold
    cases hx : f a x with
    | error e => rw [hx] at hfold; exact Except.noConfusion hfold
    | ok a' =>
      rw [hx] at hfold
      exact ih a' d (hf a x a' ha hx) hfold

theorem foldlM_error_step {α β E : Type} {f : List α → β → Except E (List α)}
    {P : List α → Prop} (hf : ∀ a x d, P a → f a x = .ok d → P d) :
    ∀ cs a e, P a → List.foldlM f a cs = .error e →
      ∃ x ∈ cs, ∃ a', P a' ∧ f a' x = .error e := by
  intro cs
  induction cs with
  | nil => intro a e _ hfold; exact Except.noConfusion hfold
  | cons x xs ih =>
    intro a e ha hfold
    rw [List.foldlM_cons] at hfold
    cases hx : f a x with
    | error e' =>
      rw [hx] at hfold
      have he : e' = e := Except.error.inj hfold
      exact ⟨x, by simp, a, ha, he ▸ hx⟩
    | ok a' =>
      rw [hx] at hfold
      obtain ⟨y, hy, a'', h1, h2⟩ := ih a' e (hf a x a' ha hx) hfold
      exact ⟨y, by simp [hy], a'', h1, h2⟩

theorem digChar_inj : ∀ d < 10, ∀ e < 10, digChar d = digChar e → d = e := by
  decide

theorem map_digChar_inj :
    ∀ l1 l2 : List Nat, (∀ x ∈ l1, x < 10) → (∀ x ∈ l2, x < 10) →
      l1.map digChar = l2.map digChar → l1 = l2 := by
  intro l1
  induction l1 with
  | nil => intro l2 _ _ hm; cases l2 <;> simp_all
  | cons a t ih =>
    intro l2 h1 h2 hm
    cases l2 with
    | nil => simp at hm
    | cons b t2 =>
      simp only [List.map_cons, List.cons.injEq] at hm
      have hd := digChar_inj a (h1 a (by simp)) b (h2 b (by simp)) hm.1
      have ht := ih t2 (fun x hx => h1 x (by simp [hx])) (fun x hx => h2 x (by simp [hx])) hm.2
      rw [hd, ht]

section LookupLemmas

variable {α : Type} {β : Type} [BEq α] [LawfulBEq α]

theorem lookup_mem {l : List (α × β)} {i : α} {o : β}
    (h : List.lookup i l = some o) : (i, o) ∈ l := by
  induction l with
  | nil => simp [List.lookup] at h
  | cons q t ih =>
    cases hq : i == q.1
    · simp only [List.lookup, hq] at h
      exact List.mem_cons_of_mem _ (ih h)
    · simp only [List.lookup, hq, Option.some.injEq] at h
      have : i = q.1 := eq_of_beq hq
      cases q
      simp [← h, this]

theorem lookup_isSome_iff {l : List (α × β)} {i : α} :
    (List.lookup i l).isSome ↔ i ∈ l.map Prod.fst := by
  induction l with
  | nil => simp [List.lookup]
  | cons q t ih =>
    cases hq : i == q.1
    · simp only [List.lookup, hq, List.map_cons, List.mem_cons]
      constructor
      · intro hs; exact Or.inr (ih.mp hs)
      · intro hm
        cases hm with
        | inl he => exact absurd (beq_iff_eq.mpr he) (by simp [hq])
        | inr hm => exact ih.mpr hm
    · simp [List.lookup, hq, eq_of_beq hq]

theorem lookup_eq_none_of_not_mem {l : List (α × β)} {i : α}
    (h : i ∉ l.map Prod.fst) : List.lookup i l = none := by
  cases hl : List.lookup i l with
  | none => rfl
  | some o =>
    exact absurd (lookup_isSome_iff.mp (by simp [hl])) h

theorem lookup_append_right {l1 l2 : List (α × β)} {i : α}
    (h : i ∉ l1.map Prod.fst) : List.lookup i (l1 ++ l2) = List.lookup i l2 := by
  induction l1 with
  | nil => simp
  | cons q t ih =>
    simp only [List.map_cons, List.mem_cons] at h
    push_neg at h
    have hq : (i == q.1) = false := beq_eq_false_iff_ne.mpr h.1
    rw [List.cons_append]
    simp only [List.lookup, hq]
    exact ih h.2

omit [LawfulBEq α] in
theorem lookup_append_left {l1 l2 : List (α × β)} {i : α} {o : β}
    (h : List.lookup i l1 = some o) : List.lookup i (l1 ++ l2) = some o := by
  induction l1 with
  | nil => simp [List.lookup] at h
  | cons q t ih =>
    rw [List.cons_append]
    cases hq : i == q.1
    · simp only [List.lookup, hq] at h ⊢
      exact ih h
    · simp only [List.lookup, hq] at h ⊢
      exact h

theorem lookup_of_mem_nodup {l : List (α × β)} {i : α} {o : β}
    (hn : (l.map Prod.fst).Nodup) (hm : (i, o) ∈ l) : List.lookup i l = some o := by
  induction l with
  | nil => simp at hm
  | cons q t ih =>
    simp only [List.map_cons, List.nodup_cons] at hn
    cases List.mem_cons.mp hm with
    | inl he =>
      rw [← he]
      simp [List.lookup]
    | inr hm' =>
      have hne : (i == q.1) = false := by
        apply beq_eq_false_iff_ne.mpr
        intro heq
        exact hn.1 (heq ▸ (List.mem_map.mpr ⟨(i, o), hm', rfl⟩))
      simp only [List.lookup, hne]
      exact ih hn.2 hm'

end LookupLemmas

theorem natStr_inj : ∀ {a b : Nat}, natStr a = natStr b → a = b := by
  have digLt : ∀ n, ∀ x ∈ (Nat.digits 10 n).reverse, x < 10 := by
    intro n x hx
    exact Nat.digits_lt_base (by norm_num) (List.mem_reverse.mp hx)
  have single : ∀ b : Nat, b ≠ 0 → (Nat.digits 10 b).reverse.map digChar = ['0'] → False := by
    intro b hb hdata
    cases hrev : (Nat.digits 10 b).reverse with
    | nil => rw [hrev] at hdata; simp at hdata
    | cons d t =>
      rw [hrev] at hdata
      cases t with
      | cons _ _ => simp at hdata
      | nil =>
        simp only [List.map_cons, List.map_nil, List.cons.injEq] at hdata
        have hd10 : d < 10 := digLt b d (by rw [hrev]; simp)
        have hd0 : d = 0 := digChar_inj d hd10 0 (by norm_num) (by rw [hdata.1]; rfl)
        have hdd : Nat.digits 10 b = [d] := by
          have := congrArg List.reverse hrev
          simpa using this
        have hb0 : Nat.ofDigits 10 (Nat.digits 10 b) = b := Nat.ofDigits_digits 10 b
        rw [hdd, hd0] at hb0
        simp [Nat.ofDigits] at hb0
        exact hb (hb0.symm)
  have key : ∀ {a b : Nat}, a ≠ 0 → b ≠ 0 → natStr a = natStr b → a = b := by
    intro a b ha hb h
    simp only [natStr, ha, hb, if_false] at h
    have hdata : (Nat.digits 10 a).reverse.map digChar = (Nat.digits 10 b).reverse.map digChar :=
      congrArg String.data h
    have := map_digChar_inj _ _ (digLt a) (digLt b) hdata
    have hDig : Nat.digits 10 a = Nat.digits 10 b := List.reverse_injective this
    calc a = Nat.ofDigits 10 (Nat.digits 10 a) := (Nat.ofDigits_digits 10 a).symm
      _ = Nat.ofDigits 10 (Nat.digits 10 b) := by rw [hDig]
      _ = b := Nat.ofDigits_digits 10 b
  intro a b h
  by_cases ha : a = 0 <;> by_cases hb : b = 0
  · rw [ha, hb]
  · exfalso
    rw [ha] at h
    simp only [natStr, hb, if_false, if_pos rfl] at h
    exact single b hb (congrArg String.data h).symm
  · exfalso
    rw [hb] at h
    simp only [natStr, ha, if_false, if_pos rfl] at h
    exact single a ha (congrArg String.data h)
  · exact key ha hb h

theorem str_ext {s t : String} (h : s.data = t.data) : s = t := by
  cases s; cases t; exact congrArg String.mk h

theorem gen_data (s : String) : ("_g" ++ s).data = '_' :: 'g' :: s.data := by
  simp [String.data_append]

theorem gen_ne_top {u : String} (hu : u.data.head? ≠ some '_') (s : String) :
    u ≠ "_g" ++ s := by
  intro he
  apply hu
  rw [he, gen_data]
  rfl

theorem gen_inj {j k : Nat} (h : "_g" ++ natStr j = "_g" ++ natStr k) : j = k := by
  have hd := congrArg String.data h
  rw [gen_data, gen_data] at hd
  simp only [List.cons.injEq, true_and] at hd
  exact natStr_inj (str_ext hd)

theorem gen_ne_builtins (s : String) : "_g" ++ s ≠ "__builtins__" := by
  intro h
  have hd := congrArg String.data h
  rw [gen_data] at hd
  have : ('_' :: 'g' :: s.data).get? 1 = ("__builtins__" : String).data.get? 1 := by rw [hd]
  simp [List.get?] at this

theorem gen_ne_arrays (s : String) : "_g" ++ s ≠ "_arrays" := by
  intro h
  have hd := congrArg String.data h
  rw [gen_data] at hd
  have : ('_' :: 'g' :: s.data).get? 1 = ("_arrays" : String).data.get? 1 := by rw [hd]
  simp [List.get?] at this

theorem gen_ne_range (s : String) : "_g" ++ s ≠ "_range" := by
  intro h
  have hd := congrArg String.data h
  rw [gen_data] at hd
  have : ('_' :: 'g' :: s.data).get? 1 = ("_range" : String).data.get? 1 := by rw [hd]
  simp [List.get?] at this

theorem find?_top_of_mem {tops : List (String × ObjId)}
    (H2 : (tops.map Prod.snd).Nodup) {n : String} {i : ObjId} (hm : (n, i) ∈ tops) :
    tops.find? (fun p => p.2 == i) = some (n, i) := by
  induction tops with
  | nil => simp at hm
  | cons q t ih =>
    simp only [List.map_cons, List.nodup_cons] at H2
    cases List.mem_cons.mp hm with
    | inl he =>
      rw [← he]
      simp [List.find?]
    | inr hm' =>
      have hqi : (q.2 == i) = false := by
        apply beq_eq_false_iff_ne.mpr
        intro heq
        exact H2.1 (heq ▸ (List.mem_map.mpr ⟨(n, i), hm', rfl⟩))
      simp only [List.find?, hqi]
      exact ih H2.2 hm'

theorem nameOf_top {tops : List (String × ObjId)} {plan : List ObjId}
    (H2 : (tops.map Prod.snd).Nodup) {n : String} {i : ObjId} (hm : (n, i) ∈ tops) :
    nameOf tops plan i = n := by
  rw [nameOf, find?_top_of_mem H2 hm]

theorem nameOf_gen {tops : List (String × ObjId)} {plan : List ObjId} {i : ObjId}
    (hno : ∀ p ∈ tops, p.2 ≠ i) :
    nameOf tops plan i = "_g" ++ natStr (plan.indexOf i) := by
  rw [nameOf, List.find?_eq_none.mpr (fun p hp => by simpa using hno p hp)]

theorem fst_nodup_eq {tops : List (String × ObjId)}
    (H1 : (tops.map Prod.fst).Nodup) {n : String} {i j : ObjId}
    (h1 : (n, i) ∈ tops) (h2 : (n, j) ∈ tops) : i = j := by
  induction tops with
  | nil => simp at h1
  | cons q t ih =>
    simp only [List.map_cons, List.nodup_cons] at H1
    cases List.mem_cons.mp h1 with
    | inl he1 =>
      cases List.mem_cons.mp h2 with
      | inl he2 => exact (Prod.ext_iff.mp (he1.trans he2.symm)).2
      | inr hm2 =>
        exfalso
        exact H1.1 (by rw [← he1]; exact List.mem_map.mpr ⟨(n, j), hm2, rfl⟩)
    | inr hm1 =>
      cases List.mem_cons.mp h2 with
      | inl he2 =>
        exfalso
        exact H1.1 (by rw [← he2]; exact List.mem_map.mpr ⟨(n, i), hm1, rfl⟩)
      | inr hm2 => exact ih H1.2 hm1 hm2

theorem nameOf_inj {h : Heap} {tops : List (String × ObjId)} {plan : List ObjId}
    (HN : NamesOK h tops) {i j : ObjId} (hi : i ∈ plan) (hj : j ∈ plan)
    (he : nameOf tops plan i = nameOf tops plan j) : i = j := by
  obtain ⟨H1, H2, H3, _⟩ := HN
  cases hfi : tops.find? (fun p => p.2 == i) with
  | some p =>
    have hpm := List.mem_of_find?_eq_some hfi
    have hpi : p.2 = i := by simpa using List.find?_some hfi
    have hei : nameOf tops plan i = p.1 := by rw [nameOf, hfi]
    cases hfj : tops.find? (fun p => p.2 == j) with
    | some q =>
      have hqm := List.mem_of_find?_eq_some hfj
      have hqj : q.2 = j := by simpa using List.find?_some hfj
      have hej : nameOf tops plan j = q.1 := by rw [nameOf, hfj]
      rw [hei, hej] at he
      rw [← hpi, ← hqj]
      have hp' : (p.1, p.2) ∈ tops := by simpa using hpm
      have hq' : (p.1, q.2) ∈ tops := by rw [he]; simpa using hqm
      exact fst_nodup_eq H1 hp' hq'
    | none =>
      have hej : nameOf tops plan j = "_g" ++ natStr (plan.indexOf j) := by
        rw [nameOf, hfj]
      rw [hei, hej] at he
      exact absurd he (gen_ne_top ((H3 p hpm).2) _)
  | none =>
    have hei : nameOf tops plan i = "_g" ++ natStr (plan.indexOf i) := by
      rw [nameOf, hfi]
    cases hfj : tops.find? (fun p => p.2 == j) with
    | some q =>
      have hqm := List.mem_of_find?_eq_some hfj
      have hej : nameOf tops plan j = q.1 := by rw [nameOf, hfj]
      rw [hei, hej] at he
      exact absurd he.symm (gen_ne_top ((H3 q hqm).2) _)
    | none =>
      have hej : nameOf tops plan j = "_g" ++ natStr (plan.indexOf j) := by
        rw [nameOf, hfj]
      rw [hei, hej] at he
      have hidx := gen_inj he
      have hii : plan.indexOf i < plan.length := List.indexOf_lt_length.mpr hi
      have hjj : plan.indexOf j < plan.length := List.indexOf_lt_length.mpr hj
      calc i = plan[plan.indexOf i] := (List.getElem_indexOf hii).symm
        _ = plan[plan.indexOf j] := by simp only [hidx]
        _ = j := List.getElem_indexOf hjj

/-! ### Invariants of the graph builder -/

theorem find?_mem {h : Heap} {i : ObjId} {o : Obj} (hf : h.find? i = some o) :
    (i, o) ∈ h := lookup_mem hf

theorem find?_isSome_iff {h : Heap} {i : ObjId} :
    (h.find? i).isSome ↔ i ∈ h.keys := lookup_isSome_iff

theorem foldlM_prefix {α β E : Type} {f : List α → β → Except E (List α)}
    (hpre : ∀ a x d, f a x = .ok d → ∃ t, d = a ++ t) :
    ∀ cs a d, List.foldlM f a cs = .ok d → ∃ t, d = a ++ t := by
  intro cs a d hfold
  refine foldlM_ok_inv (P := fun l => ∃ t, l = a ++ t) ?_ cs a d ⟨[], by simp⟩ hfold
  rintro a' x d' ⟨t, rfl⟩ hstep
  obtain ⟨t', rfl⟩ := hpre _ _ _ hstep
  exact ⟨t ++ t', by simp⟩

theorem foldlM_mem {α E : Type} {f : List α → α → Except E (List α)}
    (hpre : ∀ a x d, f a x = .ok d → ∃ t, d = a ++ t)
    (hmem : ∀ a x d, f a x = .ok d → x ∈ d) :
    ∀ cs a d, List.foldlM f a cs = .ok d → ∀ x ∈ cs, x ∈ d := by
  intro cs
  induction cs with
  | nil => intro a d _ x hx; simp at hx
  | cons y ys ih =>
    intro a d hfold x hx
    rw [List.foldlM_cons] at hfold
    cases hy : f a y with
    | error e => rw [hy] at hfold; exact Except.noConfusion hfold
    | ok a' =>
      rw [hy] at hfold
      cases List.mem_cons.mp hx with
      | inl he =>
        obtain ⟨t, rfl⟩ := foldlM_prefix hpre ys a' d hfold
        exact List.mem_append_left t (he ▸ hmem a y a' hy)
      | inr hm => exact ih a' d hfold x hm

theorem visitOne_prefix {h : Heap} :
    ∀ (fuel : Nat) (path done : List ObjId) (c : ObjId) (d : List ObjId),
      visitOne h fuel path done c = .ok d → ∃ t, d = done ++ t := by
  intro fuel
  induction fuel with
  | zero => intro path done c d hv; exact Except.noConfusion hv
  | succ f ih =>
    intro path done c d hv
    simp only [visitOne] at hv
    split at hv
    · exact ⟨[], by simp [← Except.ok.inj hv]⟩
    · split at hv
      · exact Except.noConfusion hv
      · split at hv
        · exact Except.noConfusion hv
        · rename_i o _
          split at hv
          · exact Except.noConfusion hv
          · rename_i d' heq
            obtain ⟨t, rfl⟩ :=
              foldlM_prefix (fun a x d2 hs => ih _ a x d2 hs) o.children done d' heq
            exact ⟨t ++ [c], by simp [← Except.ok.inj hv]⟩

theorem visitOne_self_mem {h : Heap} {fuel : Nat} {path done : List ObjId} {c : ObjId}
    {d : List ObjId} (hv : visitOne h fuel path done c = .ok d) : c ∈ d := by
  cases fuel with
  | zero => exact Except.noConfusion hv
  | succ f =>
    simp only [visitOne] at hv
    split at hv
    · rename_i hc; rw [← Except.ok.inj hv]; exact hc
    · split at hv
      · exact Except.noConfusion hv
      · split at hv
        · exact Except.noConfusion hv
        · split at hv
          · exact Except.noConfusion hv
          · rw [← Except.ok.inj hv]; simp

theorem visit_fold_mem {h : Heap} {f : Nat} {path done : List ObjId}
    {cs : List ObjId} {d : List ObjId}
    (hfold : List.foldlM (visitOne h f path) done cs = .ok d) : ∀ x ∈ cs, x ∈ d :=
  foldlM_mem (fun a x d2 hs => visitOne_prefix f path a x d2 hs)
    (fun _ _ _ hs => visitOne_self_mem hs) cs done d hfold

theorem visitOne_nodup {h : Heap} :
    ∀ (fuel : Nat) (path done : List ObjId) (c : ObjId) (d : List ObjId),
      done.Nodup → (∀ x ∈ path, x ∉ done) →
      visitOne h fuel path done c = .ok d →
      d.Nodup ∧ ∀ x ∈ path, x ∉ d := by
  intro fuel
  induction fuel with
  | zero => intro path done c d _ _ hv; exact Except.noConfusion hv
  | succ f ih =>
    intro path done c d hnd hdisj hv
    simp only [visitOne] at hv
    split at hv
    · rw [← Except.ok.inj hv]; exact ⟨hnd, hdisj⟩
    · rename_i hc1
      split at hv
      · exact Except.noConfusion hv
      · rename_i hc2
        split at hv
        · exact Except.noConfusion hv
        · rename_i o hfind
          split at hv
          · exact Except.noConfusion hv
          · rename_i d' heq
            have hP := foldlM_ok_inv
              (P := fun a => a.Nodup ∧ ∀ x ∈ c :: path, x ∉ a)
              (fun a x d2 hPa hs => ih (c :: path) a x d2 hPa.1 hPa.2 hs)
              o.children done d'
              ⟨hnd, by
                intro x hx
                cases List.mem_cons.mp hx with
                | inl he => rw [he]; exact hc1
                | inr hm => exact hdisj x hm⟩
              heq
            rw [← Except.ok.inj hv]
            constructor
            · have hcd' : c ∉ d' := hP.2 c (by simp)
              simp [List.nodup_append, hP.1, hcd']
            · intro x hx
              have hxd' : x ∉ d' := hP.2 x (by simp [hx])
              have hxc : x ≠ c := fun he => hc2 (he ▸ hx)
              simp [hxd', hxc]

theorem visitOne_ordered {h : Heap} :
    ∀ (fuel : Nat) (path done : List ObjId) (c : ObjId) (d : List ObjId),
      ordered h done → visitOne h fuel path done c = .ok d → ordered h d := by
  intro fuel
  induction fuel with
  | zero => intro path done c d _ hv; exact Except.noConfusion hv
  | succ f ih =>
    intro path done c d hord hv
    simp only [visitOne] at hv
    split at hv
    · rw [← Except.ok.inj hv]; exact hord
    · split at hv
      · exact Except.noConfusion hv
      · split at hv
        · exact Except.noConfusion hv
        · rename_i o hfind
          split at hv
          · exact Except.noConfusion hv
          · rename_i d' heq
            have hord' : ordered h d' := foldlM_ok_inv
              (P := ordered h)
              (fun a x d2 hPa hs => ih (c :: path) a x d2 hPa hs)
              o.children done d' hord heq
            rw [← Except.ok.inj hv]
            intro p x hx c' hedge
            by_cases hp : p < d'.length
            · rw [List.getElem?_append_left hp] at hx
              obtain ⟨q, hq, hqx⟩ := hord' p x hx c' hedge
              exact ⟨q, hq, by rw [List.getElem?_append_left (hq.trans hp)]; exact hqx⟩
            · push_neg at hp
              rw [List.getElem?_append_right hp] at hx
              have hplen : p - d'.length = 0 ∧ x = c := by
                cases hpd : p - d'.length with
                | zero => rw [hpd] at hx; simp at hx; exact ⟨rfl, hx.symm⟩
                | succ q => rw [hpd] at hx; simp at hx
              have hpeq : p = d'.length := by omega
              obtain ⟨o', ho', hc'⟩ := hedge
              rw [hplen.2, hfind] at ho'
              have : o' = o := (Option.some.inj ho').symm ▸ rfl
              rw [this] at hc'
              have hcd' : c' ∈ d' := visit_fold_mem heq c' hc'
              obtain ⟨q, hq⟩ := List.mem_iff_getElem?.mp hcd'
              have hqlt : q < d'.length := by
                by_contra hql
                push_neg at hql
                rw [List.getElem?_eq_none hql] at hq
                exact Option.noConfusion hq
              exact ⟨q, by omega, by rw [List.getElem?_append_left hqlt]; exact hq⟩

theorem nodup_length_le {l l2 : List ObjId} (h : l.Nodup) (hs : ∀ x ∈ l, x ∈ l2) :
    l.length ≤ l2.length := by
  classical
  calc l.length = l.toFinset.card := (List.toFinset_card_of_nodup h).symm
    _ ≤ l2.toFinset.card :=
        Finset.card_le_card (fun x hx => List.mem_toFinset.mpr (hs x (List.mem_toFinset.mp hx)))
    _ ≤ l2.length := l2.toFinset_card_le

theorem visitOne_ne_noFuel {h : Heap} :
    ∀ (fuel : Nat) (path done : List ObjId) (c : ObjId),
      path.Nodup → (∀ x ∈ path, x ∈ h.keys) →
      h.keys.length < fuel + path.length →
      visitOne h fuel path done c ≠ .error .noFuel := by
  intro fuel
  induction fuel with
  | zero =>
    intro path done c hnd hk hlen _
    have := nodup_length_le hnd hk
    omega
  | succ f ih =>
    intro path done c hnd hk hlen hv
    simp only [visitOne] at hv
    split at hv
    · exact Except.noConfusion hv
    · split at hv
      · exact absurd (Except.error.inj hv) (by decide)
      · rename_i hc2
        split at hv
        · exact absurd (Except.error.inj hv) (by decide)
        · rename_i o hfind
          split at hv
          · rename_i e heq
            have he : e = .noFuel := Except.error.inj hv
            rw [he] at heq
            obtain ⟨x, _, a', _, hstep⟩ :=
              foldlM_error_step (P := fun _ => True) (fun _ _ _ _ _ => trivial)
                o.children done .noFuel trivial heq
            have hck : c ∈ h.keys := find?_isSome_iff.mp (by simp [hfind])
            refine ih (c :: path) a' x ?_ ?_ ?_ hstep
            · exact List.nodup_cons.mpr ⟨hc2, hnd⟩
            · intro y hy
              cases List.mem_cons.mp hy with
              | inl hye => rw [hye]; exact hck
              | inr hym => exact hk y hym
            · simp only [List.length_cons]
              omega
          · exact Except.noConfusion hv

theorem visitOne_error_class {h : Heap} (hclosed : ClosedHeap h) :
    ∀ (fuel : Nat) (path done : List ObjId) (c : ObjId) (e : Err),
      path.Nodup → (∀ x ∈ path, x ∈ h.keys) →
      h.keys.length < fuel + path.length → c ∈ h.keys →
      visitOne h fuel path done c = .error e → e = .cyclic := by
  intro fuel
  induction fuel with
  | zero =>
    intro path done c e hnd hk hlen _ _
    have := nodup_length_le hnd hk
    omega
  | succ f ih =>
    intro path done c e hnd hk hlen hck hv
    simp only [visitOne] at hv
    split at hv
    · exact Except.noConfusion hv
    · split at hv
      · exact (Except.error.inj hv).symm
      · rename_i hc2
        split at hv
        · rename_i hfind
          exact absurd (find?_isSome_iff.mpr hck) (by simp [hfind])
        · rename_i o hfind
          split at hv
          · rename_i e' heq
            have he : e' = e := Except.error.inj hv
            rw [he] at heq
            obtain ⟨x, hxc, a', _, hstep⟩ :=
              foldlM_error_step (P := fun _ => True) (fun _ _ _ _ _ => trivial)
                o.children done e trivial heq
            have hxk : x ∈ h.keys := by
              have hmem := find?_mem hfind
              exact find?_isSome_iff.mp (hclosed.2 (c, o) hmem x hxc)
            refine ih (c :: path) a' x e ?_ ?_ ?_ hxk hstep
            · exact List.nodup_cons.mpr ⟨hc2, hnd⟩
            · intro y hy
              cases List.mem_cons.mp hy with
              | inl hye => rw [hye]; exact hck
              | inr hym => exact hk y hym
            · simp only [List.length_cons]
              omega
          · exact Except.noConfusion hv

theorem pchain_reaches {h : Heap} :
    ∀ (t : List ObjId) (p0 : ObjId), pchain h (p0 :: t) →
      ∀ x ∈ p0 :: t, Relation.ReflTransGen (edge h) x p0 := by
  intro t
  induction t with
  | nil =>
    intro p0 _ x hx
    have : x = p0 := by simpa using hx
    rw [this]
  | cons p1 t' ih =>
    intro p0 hch x hx
    obtain ⟨hedge, hch'⟩ := hch
    cases List.mem_cons.mp hx with
    | inl he => rw [he]
    | inr hm =>
      exact (ih p1 hch' x hm).tail hedge

theorem visitOne_cyclic_cycle {h : Heap} {r : ObjId} :
    ∀ (fuel : Nat) (path done : List ObjId) (c : ObjId),
      pchain h path →
      (∀ x ∈ path, Reaches h r x) → Reaches h r c →
      (path = [] ∨ ∃ p0 t, path = p0 :: t ∧ edge h p0 c) →
      visitOne h fuel path done c = .error .cyclic →
      ∃ z, Reaches h r z ∧ CycleAt h z := by
  intro fuel
  induction fuel with
  | zero =>
    intro path done c _ _ _ _ hv
    exact absurd (Except.error.inj hv) (by decide)
  | succ f ih =>
    intro path done c hch hre hrc hdisj hv
    simp only [visitOne] at hv
    split at hv
    · exact Except.noConfusion hv
    · split at hv
      · rename_i hc2
        cases hdisj with
        | inl hnil => rw [hnil] at hc2; simp at hc2
        | inr hex =>
          obtain ⟨p0, t, hpath, hedge⟩ := hex
          rw [hpath] at hch hc2
          have hcp0 : Relation.ReflTransGen (edge h) c p0 := pchain_reaches t p0 hch c hc2
          exact ⟨c, hrc, Relation.TransGen.tail' hcp0 hedge⟩
      · split at hv
        · exact absurd (Except.error.inj hv) (by decide)
        · rename_i o hfind
          split at hv
          · rename_i e' heq
            have he : e' = Err.cyclic := Except.error.inj hv
            rw [he] at heq
            obtain ⟨x, hxc, a', _, hstep⟩ :=
              foldlM_error_step (P := fun _ => True) (fun _ _ _ _ _ => trivial)
                o.children done .cyclic trivial heq
            have hedgecx : edge h c x := ⟨o, hfind, hxc⟩
            refine ih (c :: path) a' x ?_ ?_ (hrc.tail hedgecx) ?_ hstep
            · cases path with
              | nil => trivial
              | cons p0 t =>
                obtain ⟨p0', t', hpeq, hedge'⟩ := hdisj.resolve_left (by simp)
                injection hpeq with h1 h2
                rw [← h1] at hedge'
                show edge h p0 c ∧ pchain h (p0 :: t)
                exact ⟨hedge', hch⟩
            · intro y hy
              cases List.mem_cons.mp hy with
              | inl hye => rw [hye]; exact hrc
              | inr hym => exact hre y hym
            · exact Or.inr ⟨c, path, rfl, hedgecx⟩
          · exact Except.noConfusion hv

theorem visitOne_keys {h : Heap} :
    ∀ (fuel : Nat) (path done : List ObjId) (c : ObjId) (d : List ObjId),
      (∀ x ∈ done, x ∈ h.keys) → visitOne h fuel path done c = .ok d →
      ∀ x ∈ d, x ∈ h.keys := by
  intro fuel
  induction fuel with
  | zero => intro path done c d _ hv; exact Except.noConfusion hv
  | succ f ih =>
    intro path done c d hk hv
    simp only [visitOne] at hv
    split at hv
    · rw [← Except.ok.inj hv]; exact hk
    · split at hv
      · exact Except.noConfusion hv
      · split at hv
        · exact Except.noConfusion hv
        · rename_i o hfind
          split at hv
          · exact Except.noConfusion hv
          · rename_i d' heq
            have hk' : ∀ x ∈ d', x ∈ h.keys := foldlM_ok_inv
              (P := fun a => ∀ x ∈ a, x ∈ h.keys)
              (fun a x d2 hPa hs => ih (c :: path) a x d2 hPa hs)
              o.children done d' hk heq
            rw [← Except.ok.inj hv]
            intro x hx
            cases List.mem_append.mp hx with
            | inl hm => exact hk' x hm
            | inr hm =>
              have : x = c := by simpa using hm
              rw [this]
              exact find?_isSome_iff.mp (by simp [hfind])

theorem ordered_trans {h : Heap} {l : List ObjId} (hord : ordered h l) :
    ∀ {a b : ObjId}, Relation.TransGen (edge h) a b →
      ∀ (p : Nat), l[p]? = some a → ∃ q, q < p ∧ l[q]? = some b := by
  intro a b htg
  induction htg with
  | single hedge => intro p hp; exact hord p a hp _ hedge
  | tail _ hedge ih =>
    intro p hp
    obtain ⟨q, hq, hqb⟩ := ih p hp
    obtain ⟨q', hq', hq'b⟩ := hord q _ hqb _ hedge
    exact ⟨q', hq'.trans hq, hq'b⟩

theorem ordered_no_cycle {h : Heap} {l : List ObjId} (hord : ordered h l)
    (hnd : l.Nodup) : ∀ z ∈ l, ¬ CycleAt h z := by
  intro z hz hcyc
  obtain ⟨p, hp⟩ := List.mem_iff_getElem?.mp hz
  obtain ⟨q, hq, hqz⟩ := ordered_trans hord hcyc p hp
  have hqlt : q < l.length := by
    by_contra hql
    push_neg at hql
    rw [List.getElem?_eq_none hql] at hqz
    exact Option.noConfusion hqz
  have := List.getElem?_inj hqlt hnd (hqz.trans hp.symm)
  omega

theorem ordered_mem_closed {h : Heap} {l : List ObjId} (hord : ordered h l) :
    ∀ x ∈ l, ∀ c, edge h x c → c ∈ l := by
  intro x hx c hedge
  obtain ⟨p, hp⟩ := List.mem_iff_getElem?.mp hx
  obtain ⟨q, _, hq⟩ := hord p x hp c hedge
  exact List.mem_iff_getElem?.mpr ⟨q, hq⟩

theorem reaches_mem {h : Heap} {l : List ObjId} (hord : ordered h l)
    {x y : ObjId} (hx : x ∈ l) (hr : Reaches h x y) : y ∈ l := by
  induction hr with
  | refl => exact hx
  | tail _ hedge ih => exact ordered_mem_closed hord _ ih _ hedge

theorem buildPlan_ok_props {h : Heap} {tops : List ObjId} {plan : List ObjId}
    (hb : buildPlan h tops = .ok plan) :
    ordered h plan ∧ plan.Nodup ∧ (∀ t ∈ tops, t ∈ plan) ∧ ∀ x ∈ plan, x ∈ h.keys := by
  have hinv := foldlM_ok_inv
    (P := fun a => ordered h a ∧ a.Nodup ∧ ∀ x ∈ a, x ∈ h.keys)
    (fun a x d hPa hs =>
      ⟨visitOne_ordered _ [] a x d hPa.1 hs,
       (visitOne_nodup _ [] a x d hPa.2.1 (by simp) hs).1,
       visitOne_keys _ [] a x d hPa.2.2 hs⟩)
    tops [] plan ⟨fun p x hp => by simp at hp, List.nodup_nil, by simp⟩ hb
  have hmem := foldlM_mem
    (fun a x d hs => visitOne_prefix _ [] a x d hs)
    (fun _ _ _ hs => visitOne_self_mem hs) tops [] plan hb
  exact ⟨hinv.1, hinv.2.1, hmem, hinv.2.2⟩

theorem buildPlan_error_class {h : Heap} {tops : List ObjId}
    (hclosed : ClosedHeap h) (htk : ∀ t ∈ tops, t ∈ h.keys) {e : Err}
    (hb : buildPlan h tops = .error e) : e = .cyclic := by
  obtain ⟨t, ht, a', _, hstep⟩ :=
    foldlM_error_step (P := fun _ => True) (fun _ _ _ _ _ => trivial)
      tops [] e trivial hb
  refine visitOne_error_class hclosed (h.length + 1) [] a' t e List.nodup_nil
    (by simp) ?_ (htk t ht) hstep
  simp [Heap.keys]

theorem buildPlan_error_cycle {h : Heap} {tops : List ObjId}
    (hb : buildPlan h tops = .error .cyclic) :
    ∃ r ∈ tops, ∃ z, Reaches h r z ∧ CycleAt h z := by
  obtain ⟨t, ht, a', _, hstep⟩ :=
    foldlM_error_step (P := fun _ => True) (fun _ _ _ _ _ => trivial)
      tops [] Err.cyclic trivial hb
  obtain ⟨z, hz1, hz2⟩ := visitOne_cyclic_cycle (r := t) (h.length + 1) [] a' t
    trivial (by simp) Relation.ReflTransGen.refl (Or.inl rfl) hstep
  exact ⟨t, ht, z, hz1, hz2⟩

theorem buildPlan_ok_no_cycle {h : Heap} {tops : List ObjId} {plan : List ObjId}
    (hb : buildPlan h tops = .ok plan) :
    ∀ r ∈ tops, ∀ z, Reaches h r z → ¬ CycleAt h z := by
  obtain ⟨hord, hnd, hmem, _⟩ := buildPlan_ok_props hb
  intro r hr z hrz
  exact ordered_no_cycle hord hnd z (reaches_mem hord (hmem r hr) hrz)

/-- The builder rejects exactly the inputs whose reachable reference graph
has a cycle (and then fails with `Cyclic`). -/
theorem buildPlan_cyclic_iff {h : Heap} {tops : List ObjId}
    (hclosed : ClosedHeap h) (htk : ∀ t ∈ tops, t ∈ h.keys) :
    buildPlan h tops = .error .cyclic ↔
      ∃ r ∈ tops, ∃ z, Reaches h r z ∧ CycleAt h z := by
  constructor
  · exact buildPlan_error_cycle
  · intro hcyc
    cases hb : buildPlan h tops with
    | ok plan =>
      obtain ⟨r, hr, z, hrz, hcz⟩ := hcyc
      exact absurd hcz (buildPlan_ok_no_cycle hb r hr z hrz)
    | error e => rw [buildPlan_error_class hclosed htk hb]

/-! ### Execution of the emitted module -/

theorem mapM_ok {α γ E : Type} {g : α → Except E γ} {f : α → γ} :
    ∀ l : List α, (∀ x ∈ l, g x = .ok (f x)) → l.mapM g = .ok (l.map f) := by
  intro l
  induction l with
  | nil => intro _; rfl
  | cons x t ih =>
    intro hall
    rw [List.mapM_cons, hall x (by simp), ih (fun y hy => hall y (by simp [hy]))]
    rfl

theorem execStmts_cons {A : List (List Int)} {es : ES} {s : Stmt} {l : List Stmt} :
    execStmts A es (s :: l) =
      match execStmt A es s with
      | .error e => .error e
      | .ok es' => execStmts A es' l := by
  rw [execStmts, List.foldlM_cons]
  cases execStmt A es s <;> rfl

theorem execStmts_append {A : List (List Int)} {es : ES} {l1 l2 : List Stmt} :
    execStmts A es (l1 ++ l2) =
      match execStmts A es l1 with
      | .error e => .error e
      | .ok es' => execStmts A es' l2 := by
  rw [execStmts, List.foldlM_append]
  cases hx : execStmts A es l1 <;> simp [execStmts] at hx ⊢ <;> rw [hx] <;> rfl

theorem newHeap_length {h : Heap} {plan : List ObjId} :
    (newHeap h plan).length = plan.length := by
  simp [newHeap]

theorem newHeap_keys {h : Heap} {plan : List ObjId} :
    (newHeap h plan).map Prod.fst = List.range plan.length := by
  rw [newHeap, List.map_map]
  have : (Prod.fst ∘ fun p : Nat × ObjId =>
      (p.1, renameObj (fun c => plan.indexOf c) ((h.find? p.2).getD (.oint 0)))) = Prod.fst := by
    funext p; rfl
  rw [this, List.enum_map_fst]

theorem newHeap_getElem? {h : Heap} {plan : List ObjId} {k : Nat}
    (hk : k < plan.length) :
    (newHeap h plan)[k]? =
      some (k, renameObj (fun c => plan.indexOf c) ((h.find? (plan.get ⟨k, hk⟩)).getD (.oint 0))) := by
  rw [newHeap, List.getElem?_map]
  have henum : plan.enum[k]? = some (k, plan.get ⟨k, hk⟩) := by
    rw [List.getElem?_enum]
    simp [List.getElem?_eq_getElem hk]
  rw [henum]
  rfl

theorem newHeap_take_succ {h : Heap} {plan : List ObjId} {k : Nat}
    (hk : k < plan.length) :
    (newHeap h plan).take (k + 1) = (newHeap h plan).take k ++
      [(k, renameObj (fun c => plan.indexOf c) ((h.find? (plan.get ⟨k, hk⟩)).getD (.oint 0)))] := by
  rw [List.take_succ, newHeap_getElem? hk]
  rfl

theorem heapUpd_append_key {A : Heap} {k : ObjId} {o o' : Obj} {f : Obj → Except Err Obj}
    (hk : k ∉ A.map Prod.fst) (hf : f o = .ok o') :
    heapUpd (A ++ [(k, o)]) k f = .ok (A ++ [(k, o')]) := by
  induction A with
  | nil => simp [heapUpd, hf]; rfl
  | cons q t ih =>
    simp only [List.map_cons, List.mem_cons] at hk
    push_neg at hk
    rw [List.cons_append, heapUpd]
    rw [if_neg (fun he => hk.1 he.symm)]
    rw [ih hk.2]
    rfl

theorem indexOf_of_getElem? {plan : List ObjId} (hnd : plan.Nodup) {q : Nat} {c : ObjId}
    (hq : plan[q]? = some c) : plan.indexOf c = q := by
  have hmem : c ∈ plan := List.mem_iff_getElem?.mpr ⟨q, hq⟩
  have hlt : plan.indexOf c < plan.length := List.indexOf_lt_length.mpr hmem
  have h1 : plan[plan.indexOf c]? = some c := by
    rw [List.getElem?_eq_getElem hlt, List.getElem_indexOf hlt]
  exact List.getElem?_inj hlt hnd (h1.trans hq.symm)

theorem indexOf_concat_self {pre rest : List ObjId} {i : ObjId}
    (hnd : (pre ++ i :: rest).Nodup) : (pre ++ i :: rest).indexOf i = pre.length := by
  apply indexOf_of_getElem? hnd
  rw [List.getElem?_append_right (Nat.le_refl _)]
  simp

theorem planNs_names {tops : List (String × ObjId)} {plan pre : List ObjId} :
    (planNs tops plan pre).map Prod.fst = pre.map (nameOf tops plan) := by
  rw [planNs, List.map_map]
  rfl

theorem planNs_nodup {h : Heap} {tops : List (String × ObjId)} {plan pre : List ObjId}
    (HN : NamesOK h tops) (hnd : pre.Nodup) (hsub : ∀ x ∈ pre, x ∈ plan) :
    ((planNs tops plan pre).map Prod.fst).Nodup := by
  rw [planNs_names]
  exact List.Nodup.map_on
    (fun i hi j hj he => nameOf_inj HN (hsub i hi) (hsub j hj) he) hnd

theorem lookup_planNs {h : Heap} {tops : List (String × ObjId)} {plan pre : List ObjId}
    (HN : NamesOK h tops) (hnd : pre.Nodup) (hsub : ∀ x ∈ pre, x ∈ plan)
    {c : ObjId} (hc : c ∈ pre) :
    List.lookup (nameOf tops plan c) (planNs tops plan pre) =
      some (Bnd.val (plan.indexOf c)) := by
  apply lookup_of_mem_nodup (planNs_nodup HN hnd hsub)
  rw [planNs]
  exact List.mem_map.mpr ⟨c, hc, rfl⟩

theorem mapM_map {α β γ E : Type} {f : α → β} {g : β → Except E γ} :
    ∀ l : List α, (l.map f).mapM g = l.mapM (fun x => g (f x)) := by
  intro l
  induction l with
  | nil => rfl
  | cons x t ih => rw [List.map_cons, List.mapM_cons, List.mapM_cons, ih]

theorem nsSet_fresh {ns : Ns} {n : String} {v : Bnd}
    (h : n ∉ ns.map Prod.fst) : nsSet ns n v = ns ++ [(n, v)] := by
  rw [nsSet, if_neg]
  intro hany
  obtain ⟨p, hp, hpn⟩ := List.any_eq_true.mp hany
  exact h (List.mem_map.mpr ⟨p, hp, eq_of_beq hpn⟩)

theorem plan_split_getElem? {plan pre rest : List ObjId} {i : ObjId}
    (hsplit : plan = pre ++ i :: rest) : plan[pre.length]? = some i := by
  rw [hsplit, List.getElem?_append_right (Nat.le_refl _)]
  simp

theorem plan_split_lt {plan pre rest : List ObjId} {i : ObjId}
    (hsplit : plan = pre ++ i :: rest) : pre.length < plan.length := by
  rw [hsplit]
  simp

theorem plan_split_get {plan pre rest : List ObjId} {i : ObjId}
    (hsplit : plan = pre ++ i :: rest) :
    plan.get ⟨pre.length, plan_split_lt hsplit⟩ = i := by
  have := plan_split_getElem? hsplit
  rw [List.getElem?_eq_getElem (plan_split_lt hsplit)] at this
  simpa using this

theorem plan_split_not_mem_pre {plan pre rest : List ObjId} {i : ObjId}
    (hsplit : plan = pre ++ i :: rest) (hnd : plan.Nodup) : i ∉ pre := by
  rw [hsplit] at hnd
  intro hip
  rw [List.nodup_append] at hnd
  exact hnd.2.2 hip (by simp)

theorem child_mem_pre {h : Heap} {plan pre rest : List ObjId} {i : ObjId} {o : Obj}
    (hord : ordered h plan) (hsplit : plan = pre ++ i :: rest)
    (hfind : h.find? i = some o) {c : ObjId} (hc : c ∈ o.children) : c ∈ pre := by
  obtain ⟨q, hq, hqc⟩ := hord pre.length i (plan_split_getElem? hsplit) c ⟨o, hfind, hc⟩
  rw [hsplit, List.getElem?_append_left hq] at hqc
  exact List.mem_iff_getElem?.mpr ⟨q, hqc⟩

theorem lookupVal_stage {h : Heap} {tops : List (String × ObjId)} {plan pre : List ObjId}
    {nsI : Ns} (HN : NamesOK h tops) (hndp : pre.Nodup) (hsub : ∀ x ∈ pre, x ∈ plan)
    (hnsI : ∀ x ∈ plan, nameOf tops plan x ∉ nsI.map Prod.fst)
    {c : ObjId} (hc : c ∈ pre) :
    lookupVal (nsI ++ planNs tops plan pre) (nameOf tops plan c) =
      .ok (plan.indexOf c) := by
  rw [lookupVal, lookup_append_right (hnsI c (hsub c hc)),
    lookup_planNs HN hndp hsub hc]

theorem stage_fresh {h : Heap} {tops : List (String × ObjId)} {plan pre : List ObjId}
    {nsI : Ns} (HN : NamesOK h tops) (hsub : ∀ x ∈ pre, x ∈ plan)
    (hnsI : ∀ x ∈ plan, nameOf tops plan x ∉ nsI.map Prod.fst)
    {i : ObjId} (hip : i ∉ pre) (hipl : i ∈ plan) :
    nameOf tops plan i ∉ (nsI ++ planNs tops plan pre).map Prod.fst := by
  rw [List.map_append, List.mem_append]
  rintro (hm | hm)
  · exact hnsI i hipl hm
  · rw [planNs_names] at hm
    obtain ⟨c, hc, hce⟩ := List.mem_map.mp hm
    exact hip (nameOf_inj HN (hsub c hc) hipl hce ▸ hc)

theorem sidecar_append {h : Heap} {th : Option Nat} {l1 l2 : List ObjId} :
    sidecarOf h th (l1 ++ l2) = sidecarOf h th l1 ++ sidecarOf h th l2 := by
  rw [sidecarOf, List.filterMap_append]
  rfl

theorem sidecar_getElem {h : Heap} {th : Option Nat} {plan pre rest : List ObjId}
    {i : ObjId} {es : List Int} (hsplit : plan = pre ++ i :: rest)
    (hfind : h.find? i = some (.oarr es)) (hlarge : isLarge th es.length = true) :
    (sidecarOf h th plan)[scCount h th pre]? = some es := by
  rw [hsplit, sidecar_append, scCount,
    List.getElem?_append_right (Nat.le_refl _), Nat.sub_self]
  have : sidecarOf h th (i :: rest) = es :: sidecarOf h th rest := by
    rw [sidecarOf, List.filterMap_cons]
    simp only [hfind, hlarge, if_true]
    rfl
  rw [this]
  simp

theorem scCount_snoc {h : Heap} {th : Option Nat} {pre : List ObjId} {i : ObjId}
    {o : Obj} (hfind : h.find? i = some o) :
    scCount h th (pre ++ [i]) =
      scCount h th pre + (if isLargeArr th o then 1 else 0) := by
  rw [scCount, sidecar_append, List.length_append, scCount]
  congr 1
  cases o with
  | oarr es =>
    by_cases hl : isLarge th es.length
    · simp [sidecarOf, List.filterMap_cons, hfind, hl, isLargeArr]
    · simp [sidecarOf, List.filterMap_cons, hfind, hl, isLargeArr]
  | oint n => simp [sidecarOf, List.filterMap_cons, hfind, isLargeArr]
  | orange a b => simp [sidecarOf, List.filterMap_cons, hfind, isLargeArr]
  | olist es => simp [sidecarOf, List.filterMap_cons, hfind, isLargeArr]
  | ouser m c args st hs hg => simp [sidecarOf, List.filterMap_cons, hfind, isLargeArr]

theorem planNs_snoc {tops : List (String × ObjId)} {plan pre : List ObjId} {i : ObjId} :
    planNs tops plan (pre ++ [i]) =
      planNs tops plan pre ++ [(nameOf tops plan i, Bnd.val (plan.indexOf i))] := by
  rw [planNs, List.map_append, planNs]
  rfl

theorem newHeap_take_keys {h : Heap} {plan : List ObjId} {k : Nat} :
    k ∉ ((newHeap h plan).take k).map Prod.fst := by
  rw [List.map_take, newHeap_keys, List.take_range]
  intro hm
  have := List.mem_range.mp hm
  omega

theorem execStmts_nil {A : List (List Int)} {es : ES} : execStmts A es [] = .ok es := rfl

theorem execStmts_cons_ok {A : List (List Int)} {es es' : ES} {s : Stmt} {l : List Stmt}
    (hs : execStmt A es s = .ok es') : execStmts A es (s :: l) = execStmts A es' l := by
  rw [execStmts_cons, hs]

theorem execStep_flat {h : Heap} {th : Option Nat} {tops : List (String × ObjId)}
    {plan pre rest : List ObjId} {i : ObjId} {o : Obj} {nsI : Ns}
    (HN : NamesOK h tops) (hord : ordered h plan) (hnd : plan.Nodup)
    (hsplit : plan = pre ++ i :: rest) (hfind : h.find? i = some o)
    (hnsI : ∀ x ∈ plan, nameOf tops plan x ∉ nsI.map Prod.fst) :
    execStmts (sidecarOf h th plan)
      ⟨(newHeap h plan).take pre.length, pre.length, nsI ++ planNs tops plan pre⟩
      (Stmt.assign (nameOf tops plan i)
          (repNode th (nameOf tops plan i) (nameOf tops plan) (scCount h th pre) o).1
        :: (repNode th (nameOf tops plan i) (nameOf tops plan) (scCount h th pre) o).2)
    = .ok ⟨(newHeap h plan).take (pre.length + 1), pre.length + 1,
        nsI ++ planNs tops plan (pre ++ [i])⟩ := by
  have hsub : ∀ x ∈ pre, x ∈ plan := fun x hx => by
    rw [hsplit]; exact List.mem_append_left _ hx
  have hpre_nd : pre.Nodup := by
    rw [hsplit] at hnd; exact hnd.of_append_left
  have hiplan : i ∈ plan := by rw [hsplit]; simp
  have hip : i ∉ pre := plan_split_not_mem_pre hsplit hnd
  have hidxp : plan.indexOf i = pre.length := by
    rw [hsplit]; exact indexOf_concat_self (hsplit ▸ hnd)
  have hfresh : nameOf tops plan i ∉ (nsI ++ planNs tops plan pre).map Prod.fst :=
    stage_fresh HN hsub hnsI hip hiplan
  have hk : pre.length < plan.length := plan_split_lt hsplit
  have htake : (newHeap h plan).take (pre.length + 1) =
      (newHeap h plan).take pre.length ++
        [(pre.length, renameObj (fun c => plan.indexOf c) o)] := by
    rw [newHeap_take_succ hk, plan_split_get hsplit, hfind]
    rfl
  have hns' : nsSet (nsI ++ planNs tops plan pre) (nameOf tops plan i)
      (Bnd.val pre.length) = nsI ++ planNs tops plan (pre ++ [i]) := by
    rw [nsSet_fresh hfresh, planNs_snoc, hidxp, List.append_assoc]
  have hnsapp : nsI ++ planNs tops plan (pre ++ [i]) =
      (nsI ++ planNs tops plan pre) ++ [(nameOf tops plan i, Bnd.val pre.length)] := by
    rw [planNs_snoc, hidxp, List.append_assoc]
  cases o with
  | oint n =>
    rw [repNode]
    have h1 : execStmt (sidecarOf h th plan)
        ⟨(newHeap h plan).take pre.length, pre.length, nsI ++ planNs tops plan pre⟩
        (Stmt.assign (nameOf tops plan i) (Expr.eint n))
        = .ok ⟨(newHeap h plan).take pre.length ++ [(pre.length, Obj.oint n)],
            pre.length + 1,
            nsSet (nsI ++ planNs tops plan pre) (nameOf tops plan i)
              (Bnd.val pre.length)⟩ := rfl
    rw [execStmts_cons_ok h1, execStmts_nil, hns', htake]
    rfl
  | orange a b =>
    rw [repNode]
    have h1 : execStmt (sidecarOf h th plan)
        ⟨(newHeap h plan).take pre.length, pre.length, nsI ++ planNs tops plan pre⟩
        (Stmt.assign (nameOf tops plan i) (Expr.erange a b))
        = .ok ⟨(newHeap h plan).take pre.length ++ [(pre.length, Obj.orange a b)],
            pre.length + 1,
            nsSet (nsI ++ planNs tops plan pre) (nameOf tops plan i)
              (Bnd.val pre.length)⟩ := rfl
    rw [execStmts_cons_ok h1, execStmts_nil, hns', htake]
    rfl
  | olist es =>
    rw [repNode]
    have hmapM : (es.map (nameOf tops plan)).mapM
        (lookupVal (nsI ++ planNs tops plan pre)) = .ok (es.map (plan.indexOf ·)) := by
      rw [mapM_map]
      apply mapM_ok
      intro c hc
      exact lookupVal_stage HN hpre_nd hsub hnsI
        (child_mem_pre hord hsplit hfind (by simpa [Obj.children] using hc))
    have h1 : execStmt (sidecarOf h th plan)
        ⟨(newHeap h plan).take pre.length, pre.length, nsI ++ planNs tops plan pre⟩
        (Stmt.assign (nameOf tops plan i)
          (Expr.elist (es.map (nameOf tops plan))))
        = .ok ⟨(newHeap h plan).take pre.length ++
              [(pre.length, Obj.olist (es.map (plan.indexOf ·)))],
            pre.length + 1,
            nsSet (nsI ++ planNs tops plan pre) (nameOf tops plan i)
              (Bnd.val pre.length)⟩ := by
      simp only [execStmt, evalExpr]
      rw [hmapM]
      rfl
    rw [execStmts_cons_ok h1, execStmts_nil, hns', htake]
    rfl
  | oarr es =>
    rw [repNode]
    by_cases hl : isLarge th es.length
    · rw [if_pos hl]
      have h1 : execStmt (sidecarOf h th plan)
          ⟨(newHeap h plan).take pre.length, pre.length, nsI ++ planNs tops plan pre⟩
          (Stmt.assign (nameOf tops plan i) (Expr.earrRef (scCount h th pre)))
          = .ok ⟨(newHeap h plan).take pre.length ++ [(pre.length, Obj.oarr es)],
              pre.length + 1,
              nsSet (nsI ++ planNs tops plan pre) (nameOf tops plan i)
                (Bnd.val pre.length)⟩ := by
        simp only [execStmt, evalExpr]
        rw [sidecar_getElem hsplit hfind hl]
        rfl
      rw [execStmts_cons_ok h1, execStmts_nil, hns', htake]
      rfl
    · rw [if_neg hl]
      have h1 : execStmt (sidecarOf h th plan)
          ⟨(newHeap h plan).take pre.length, pre.length, nsI ++ planNs tops plan pre⟩
          (Stmt.assign (nameOf tops plan i) (Expr.earr es))
          = .ok ⟨(newHeap h plan).take pre.length ++ [(pre.length, Obj.oarr es)],
              pre.length + 1,
              nsSet (nsI ++ planNs tops plan pre) (nameOf tops plan i)
                (Bnd.val pre.length)⟩ := rfl
      rw [execStmts_cons_ok h1, execStmts_nil, hns', htake]
      rfl
  | ouser m cls args st hs hg =>
    rw [repNode]
    have h1 : execStmt (sidecarOf h th plan)
        ⟨(newHeap h plan).take pre.length, pre.length, nsI ++ planNs tops plan pre⟩
        (Stmt.assign (nameOf tops plan i) (Expr.enew m cls args))
        = .ok ⟨(newHeap h plan).take pre.length ++
            [(pre.length, Obj.ouser m cls args [] false false)],
            pre.length + 1,
            (nsI ++ planNs tops plan pre) ++
              [(nameOf tops plan i, Bnd.val pre.length)]⟩ := by
      have : execStmt (sidecarOf h th plan)
          ⟨(newHeap h plan).take pre.length, pre.length, nsI ++ planNs tops plan pre⟩
          (Stmt.assign (nameOf tops plan i) (Expr.enew m cls args))
          = .ok ⟨(newHeap h plan).take pre.length ++
              [(pre.length, Obj.ouser m cls args [] false false)],
              pre.length + 1,
              nsSet (nsI ++ planNs tops plan pre) (nameOf tops plan i)
                (Bnd.val pre.length)⟩ := rfl
      rw [this, nsSet_fresh hfresh]
    have hlook : lookupVal ((nsI ++ planNs tops plan pre) ++
        [(nameOf tops plan i, Bnd.val pre.length)]) (nameOf tops plan i)
        = .ok pre.length := by
      rw [lookupVal, lookup_append_right (by simpa using hfresh)]
      simp [List.lookup]
    cases hs with
    | true =>
      simp only [reduceIte]
      rw [execStmts_cons_ok h1]
      have h2 : execStmt (sidecarOf h th plan)
          ⟨(newHeap h plan).take pre.length ++
              [(pre.length, Obj.ouser m cls args [] false false)],
            pre.length + 1,
            (nsI ++ planNs tops plan pre) ++
              [(nameOf tops plan i, Bnd.val pre.length)]⟩
          (Stmt.setst (nameOf tops plan i) st)
          = .ok ⟨(newHeap h plan).take pre.length ++
              [(pre.length, Obj.ouser m cls args st false false)],
            pre.length + 1,
            (nsI ++ planNs tops plan pre) ++
              [(nameOf tops plan i, Bnd.val pre.length)]⟩ := by
        simp only [execStmt]
        rw [hlook]
        show (do
          let h' ← heapUpd ((newHeap h plan).take pre.length ++
            [(pre.length, Obj.ouser m cls args [] false false)]) pre.length
            (setObjState (fun _ => st))
          pure { heap := h', next := pre.length + 1,
                 ns := (nsI ++ planNs tops plan pre) ++
                   [(nameOf tops plan i, Bnd.val pre.length)] } : Except Err ES) = _
        rw [heapUpd_append_key newHeap_take_keys (rfl :
          setObjState (fun _ => st) (Obj.ouser m cls args [] false false)
            = .ok (Obj.ouser m cls args st false false))]
        rfl
      rw [execStmts_cons_ok h2, execStmts_nil, hnsapp, htake]
      rfl
    | false =>
      simp only [Bool.false_eq_true, reduceIte]
      rw [execStmts_cons_ok h1]
      have h2 : execStmt (sidecarOf h th plan)
          ⟨(newHeap h plan).take pre.length ++
              [(pre.length, Obj.ouser m cls args [] false false)],
            pre.length + 1,
            (nsI ++ planNs tops plan pre) ++
              [(nameOf tops plan i, Bnd.val pre.length)]⟩
          (Stmt.dictUpd (nameOf tops plan i) st)
          = .ok ⟨(newHeap h plan).take pre.length ++
              [(pre.length, Obj.ouser m cls args st false false)],
            pre.length + 1,
            (nsI ++ planNs tops plan pre) ++
              [(nameOf tops plan i, Bnd.val pre.length)]⟩ := by
        simp only [execStmt]
        rw [hlook]
        show (do
          let h' ← heapUpd ((newHeap h plan).take pre.length ++
            [(pre.length, Obj.ouser m cls args [] false false)]) pre.length
            (setObjState (fun old => mergeState old st))
          pure { heap := h', next := pre.length + 1,
                 ns := (nsI ++ planNs tops plan pre) ++
                   [(nameOf tops plan i, Bnd.val pre.length)] } : Except Err ES) = _
        have hms : mergeState [] st = st := by simp [mergeState]
        rw [heapUpd_append_key newHeap_take_keys (by rw [setObjState, hms] :
          setObjState (fun old => mergeState old st) (Obj.ouser m cls args [] false false)
            = .ok (Obj.ouser m cls args st false false))]
        rfl
      rw [execStmts_cons_ok h2, execStmts_nil, hnsapp, htake]
      rfl

theorem ne_of_head {s t : String} (h : s.data.head? ≠ t.data.head?) : s ≠ t :=
  fun he => h (he ▸ rfl)

theorem addImports_sub {acc news : List ImportR} :
    ∀ r ∈ addImports acc news, r ∈ acc ∨ r ∈ news := by
  induction news generalizing acc with
  | nil => intro r hr; exact Or.inl hr
  | cons x t ih =>
    intro r hr
    rw [addImports, List.foldl_cons] at hr
    rcases @ih (if x ∈ acc then acc else acc ++ [x]) r hr with hm | hm
    · by_cases hx : x ∈ acc
      · rw [if_pos hx] at hm; exact Or.inl hm
      · rw [if_neg hx] at hm
        rcases List.mem_append.mp hm with hm' | hm'
        · exact Or.inl hm'
        · exact Or.inr (by simpa using Or.inl (by simpa using hm'))
    · exact Or.inr (List.mem_cons_of_mem _ hm)

theorem importsOf_shape {h : Heap} {plan : List ObjId} :
    ∀ r ∈ importsOf h plan, r = ("builtins", "range", "_range") ∨
      ∃ m c, r = (m, c, c) ∧ ∃ q ∈ h, ∃ args st hs hg,
        q.2 = Obj.ouser m c args st hs hg := by
  have main : ∀ (l : List ObjId) (acc : List ImportR),
      (∀ r ∈ acc, r = ("builtins", "range", "_range") ∨
        ∃ m c, r = (m, c, c) ∧ ∃ q ∈ h, ∃ args st hs hg,
          q.2 = Obj.ouser m c args st hs hg) →
      ∀ r ∈ l.foldl (fun acc i =>
          match h.find? i with
          | none => acc
          | some o => addImports acc (objImports o)) acc,
        r = ("builtins", "range", "_range") ∨
          ∃ m c, r = (m, c, c) ∧ ∃ q ∈ h, ∃ args st hs hg,
            q.2 = Obj.ouser m c args st hs hg := by
    intro l
    induction l with
    | nil => intro acc hacc r hr; exact hacc r hr
    | cons i t ih =>
      intro acc hacc r hr
      rw [List.foldl_cons] at hr
      refine ih _ ?_ r hr
      intro r' hr'
      cases hf : h.find? i with
      | none => rw [hf] at hr'; exact hacc r' hr'
      | some o =>
        rw [hf] at hr'
        rcases addImports_sub r' hr' with hm | hm
        · exact hacc r' hm
        · cases o with
          | orange a b =>
            left
            simpa [objImports] using hm
          | ouser m c args st hs hg =>
            right
            have : r' = (m, c, c) := by simpa [objImports] using hm
            exact ⟨m, c, this, (i, Obj.ouser m c args st hs hg), find?_mem hf,
              args, st, hs, hg, rfl⟩
          | oint n => simp [objImports] at hm
          | olist es => simp [objImports] at hm
          | oarr es => simp [objImports] at hm
  intro r hr
  exact main plan [] (by simp) r hr

theorem alias_ne_special {h : Heap} {tops : List (String × ObjId)} {plan : List ObjId}
    (HN : NamesOK h tops) :
    ∀ r ∈ importsOf h plan, r.2.2 ≠ "__builtins__" ∧ r.2.2 ≠ "_arrays" := by
  intro r hr
  rcases importsOf_shape r hr with he | ⟨m, c, he, q, hq, args, st, hs, hg, hou⟩
  · rw [he]; exact ⟨by decide, by decide⟩
  · have hcls := HN.2.2.2 q hq
    rw [hou, objClsOK] at hcls
    have hch : c.data.head? ≠ some '_' := by
      have := (Bool.and_eq_true _ _ |>.mp hcls).1
      simpa using this
    rw [he]
    constructor
    · exact ne_of_head (by rw [show ("__builtins__" : String).data.head? = some '_' from rfl]; exact hch)
    · exact ne_of_head (by rw [show ("_arrays" : String).data.head? = some '_' from rfl]; exact hch)

theorem alias_ne_node {h : Heap} {tops : List (String × ObjId)} {plan : List ObjId}
    (HN : NamesOK h tops) :
    ∀ r ∈ importsOf h plan, ∀ i ∈ plan, nameOf tops plan i ≠ r.2.2 := by
  intro r hr i _
  rcases importsOf_shape r hr with he | ⟨m, c, he, q, hq, args, st, hs, hg, hou⟩
  · rw [he]
    cases hfi : tops.find? (fun p => p.2 == i) with
    | some p =>
      have hpm := List.mem_of_find?_eq_some hfi
      have : nameOf tops plan i = p.1 := by rw [nameOf, hfi]
      rw [this]
      exact ne_of_head (by
        rw [show ("_range" : String).data.head? = some '_' from rfl]
        exact (HN.2.2.1 p hpm).2)
    | none =>
      have : nameOf tops plan i = "_g" ++ natStr (plan.indexOf i) := by rw [nameOf, hfi]
      rw [this]
      show "_g" ++ natStr (plan.indexOf i) ≠ "_range"
      exact gen_ne_range _
  · have hcls := HN.2.2.2 q hq
    rw [hou, objClsOK] at hcls
    have hand := Bool.and_eq_true _ _ |>.mp hcls
    have hch : c.data.head? ≠ some '_' := by simpa using hand.1
    have htne : ∀ p ∈ tops, p.1 ≠ c := by
      intro p hp
      have := List.all_eq_true.mp hand.2 p hp
      simpa using this
    rw [he]
    cases hfi : tops.find? (fun p => p.2 == i) with
    | some p =>
      have hpm := List.mem_of_find?_eq_some hfi
      have : nameOf tops plan i = p.1 := by rw [nameOf, hfi]
      rw [this]
      exact htne p hpm
    | none =>
      have : nameOf tops plan i = "_g" ++ natStr (plan.indexOf i) := by rw [nameOf, hfi]
      rw [this]
      show "_g" ++ natStr (plan.indexOf i) ≠ c
      exact fun hx => (gen_ne_top hch (natStr (plan.indexOf i))) hx.symm


theorem execImports {A : List (List Int)} :
    ∀ (imps : List ImportR) (es : ES),
      ((imps.map (fun r => r.2.2)).Nodup) →
      (∀ r ∈ imps, r.2.2 ∉ es.ns.map Prod.fst) →
      execStmts A es (imps.map (fun r => Stmt.fromImport r.1 r.2.1 r.2.2))
      = .ok { es with ns := es.ns ++ importNs imps } := by
  intro imps
  induction imps with
  | nil =>
    intro es _ _
    rw [List.map_nil, execStmts_nil, importNs]
    simp
  | cons r t ih =>
    intro es hnd hfr
    rw [List.map_cons]
    have h1 : execStmt A es (Stmt.fromImport r.1 r.2.1 r.2.2)
        = .ok { es with ns := es.ns ++ [(r.2.2, Bnd.special)] } := by
      have e0 : execStmt A es (Stmt.fromImport r.1 r.2.1 r.2.2)
          = Except.ok { es with ns := nsSet es.ns r.2.2 Bnd.special } := rfl
      rw [e0, nsSet_fresh (hfr r (by simp))]
    rw [List.map_cons] at hnd
    have hnd' := List.nodup_cons.mp hnd
    have hfr' : ∀ q ∈ t, q.2.2 ∉
        ({ es with ns := es.ns ++ [(r.2.2, Bnd.special)] } : ES).ns.map Prod.fst := by
      intro q hq
      simp only [List.map_append]
      rw [List.mem_append]
      rintro (hm | hm)
      · exact hfr q (by simp [hq]) hm
      · have : q.2.2 = r.2.2 := by simpa using hm
        exact hnd'.1 (this ▸ List.mem_map.mpr ⟨q, hq, rfl⟩)
    rw [execStmts_cons_ok h1, ih _ hnd'.2 hfr']
    rw [importNs, importNs, List.map_cons]
    simp [List.append_assoc]

theorem execDels {A : List (List Int)} :
    ∀ (names : List String) (es : ES),
      execStmts A es (names.map Stmt.sdel)
      = .ok { es with ns := names.foldl nsDel es.ns } := by
  intro names
  induction names with
  | nil => intro es; rw [List.map_nil, execStmts_nil]; rfl
  | cons n t ih =>
    intro es
    rw [List.map_cons, execStmts_cons_ok
      (show execStmt A es (Stmt.sdel n) = Except.ok { es with ns := nsDel es.ns n } from rfl),
      ih]
    rfl

theorem nsDel_not_mem {ns : Ns} {n : String} (h : n ∉ ns.map Prod.fst) :
    nsDel ns n = ns := by
  rw [nsDel, List.eraseP_of_forall_not]
  intro p hp hbeq
  exact h (List.mem_map.mpr ⟨p, hp, eq_of_beq (by simpa using hbeq)⟩)

theorem nsDel_eq_filter {ns : Ns} (hnod : (ns.map Prod.fst).Nodup) (n : String) :
    nsDel ns n = ns.filter (fun p => !(p.1 == n)) := by
  induction ns with
  | nil => rfl
  | cons q t ih =>
    rw [List.map_cons, List.nodup_cons] at hnod
    rw [nsDel, List.eraseP_cons, List.filter_cons]
    cases hq : q.1 == n
    · simp only [hq, cond_false, Bool.not_false, if_true]
      rw [show List.eraseP (fun p => p.1 == n) t = nsDel t n from rfl, ih hnod.2]
    · simp only [hq, cond_true, Bool.not_true, Bool.false_eq_true, if_false]
      symm
      apply List.filter_eq_self.mpr
      intro p hp
      have hpn : p.1 ≠ n := by
        intro he
        apply hnod.1
        rw [eq_of_beq hq, ← he]
        exact List.mem_map.mpr ⟨p, hp, rfl⟩
      simpa using hpn

theorem filter_fst_nodup {ns : Ns} (h : (ns.map Prod.fst).Nodup)
    (P : String × Bnd → Bool) : ((ns.filter P).map Prod.fst).Nodup := by
  have hsub : List.Sublist ((ns.filter P).map Prod.fst) (ns.map Prod.fst) :=
    (List.filter_sublist ns).map Prod.fst
  exact h.sublist hsub

theorem foldl_nsDel_filter :
    ∀ (dels : List String) (ns : Ns), ((ns.map Prod.fst).Nodup) →
      List.foldl nsDel ns dels = ns.filter (fun p => !(dels.contains p.1)) := by
  intro dels
  induction dels with
  | nil =>
    intro ns _
    rw [List.foldl_nil]
    have : ns.filter (fun p => !(([] : List String).contains p.1)) = ns := by
      apply List.filter_eq_self.mpr
      intro p _
      simp
    rw [this]
  | cons d ds ih =>
    intro ns hnod
    rw [List.foldl_cons, nsDel_eq_filter hnod d, ih _ (filter_fst_nodup hnod _)]
    rw [List.filter_filter]
    apply List.filter_congr
    intro p _
    show (!(ds.contains p.1) && !(p.1 == d)) = !((d :: ds).contains p.1)
    rw [List.contains_cons]
    cases hpd : p.1 == d <;> cases hds : ds.contains p.1 <;> simp [hpd, hds]



theorem contains_true_iff {α : Type} [BEq α] [LawfulBEq α] {l : List α} {a : α} :
    l.contains a = true ↔ a ∈ l := by
  induction l with
  | nil => simp
  | cons x t ih =>
    rw [List.contains_cons]
    constructor
    · intro hor
      rcases Bool.or_eq_true _ _ |>.mp hor with hx | hx
      · exact (eq_of_beq hx) ▸ List.mem_cons_self _ _
      · exact List.mem_cons_of_mem _ (ih.mp hx)
    · intro hm
      rcases List.mem_cons.mp hm with he | hm'
      · apply Bool.or_eq_true _ _ |>.mpr
        exact Or.inl (by simp [he])
      · exact Bool.or_eq_true _ _ |>.mpr (Or.inr (ih.mpr hm'))

theorem contains_false_iff {α : Type} [BEq α] [LawfulBEq α] {l : List α} {a : α} :
    l.contains a = false ↔ a ∉ l := by
  constructor
  · intro hc hm
    rw [contains_true_iff.mpr hm] at hc
    exact Bool.noConfusion hc
  · intro hm
    cases hc : l.contains a
    · rfl
    · exact absurd (contains_true_iff.mp hc) hm

theorem node_ne_special {h : Heap} {tops : List (String × ObjId)} {plan : List ObjId}
    (HN : NamesOK h tops) :
    ∀ i ∈ plan, nameOf tops plan i ≠ "__builtins__" ∧ nameOf tops plan i ≠ "_arrays" := by
  intro i _
  cases hfi : tops.find? (fun p => p.2 == i) with
  | some p =>
    have hpm := List.mem_of_find?_eq_some hfi
    have he : nameOf tops plan i = p.1 := by rw [nameOf, hfi]
    rw [he]
    constructor
    · exact ne_of_head (by
        rw [show ("__builtins__" : String).data.head? = some '_' from rfl]
        exact (HN.2.2.1 p hpm).2)
    · exact ne_of_head (by
        rw [show ("_arrays" : String).data.head? = some '_' from rfl]
        exact (HN.2.2.1 p hpm).2)
  | none =>
    have he : nameOf tops plan i = "_g" ++ natStr (plan.indexOf i) := by rw [nameOf, hfi]
    rw [he]
    exact ⟨gen_ne_builtins _, gen_ne_arrays _⟩

theorem mem_genNames {tops : List (String × ObjId)} {plan : List ObjId} {i : ObjId}
    (hi : i ∈ plan) (hfi : tops.find? (fun p => p.2 == i) = none) :
    nameOf tops plan i ∈ genNames tops plan := by
  rw [genNames]
  apply List.mem_filterMap.mpr
  exact ⟨i, hi, by rw [hfi]⟩

theorem genNames_shape {tops : List (String × ObjId)} {plan : List ObjId} {x : String} :
    x ∈ genNames tops plan →
      ∃ j ∈ plan, tops.find? (fun p => p.2 == j) = none ∧ x = nameOf tops plan j := by
  intro hx
  rw [genNames] at hx
  obtain ⟨j, hj, hjx⟩ := List.mem_filterMap.mp hx
  cases hfj : tops.find? (fun p => p.2 == j) with
  | some p => rw [hfj] at hjx; exact absurd hjx (by simp)
  | none =>
    rw [hfj] at hjx
    exact ⟨j, hj, hfj, by simpa using hjx.symm⟩

theorem top_not_in_delList {h : Heap} {tops : List (String × ObjId)} {plan : List ObjId}
    (HN : NamesOK h tops) {i : ObjId} (hi : i ∈ plan) {p : String × ObjId}
    (hfi : tops.find? (fun q => q.2 == i) = some p) :
    p.1 ∉ delList h tops plan := by
  have hpm := List.mem_of_find?_eq_some hfi
  have hname : nameOf tops plan i = p.1 := by rw [nameOf, hfi]
  rw [delList]
  intro hmem
  rcases List.mem_append.mp hmem with hmem | hlast
  rcases List.mem_append.mp hmem with halias | hgen
  · obtain ⟨r, hr, hre⟩ := List.mem_map.mp halias
    exact alias_ne_node HN r hr i hi (hname.trans hre.symm)
  · obtain ⟨j, hjp, hfj, hje⟩ := genNames_shape hgen
    have : nameOf tops plan j = "_g" ++ natStr (plan.indexOf j) := by rw [nameOf, hfj]
    rw [this] at hje
    exact gen_ne_top (HN.2.2.1 p hpm).2 _ hje
  · have hb := node_ne_special HN i hi
    rw [hname] at hb
    rcases (by simpa using hlast : p.1 = "__builtins__" ∨ p.1 = "_arrays") with he | he
    · exact hb.1 he
    · exact hb.2 he

theorem planNs_filter {h : Heap} {tops : List (String × ObjId)} {plan : List ObjId}
    (HN : NamesOK h tops) :
    ∀ l : List ObjId, (∀ x ∈ l, x ∈ plan) →
      (planNs tops plan l).filter (fun p => !((delList h tops plan).contains p.1))
      = l.filterMap (fun i =>
          (tops.find? (fun p => p.2 == i)).map (fun p => (p.1, Bnd.val (plan.indexOf i)))) := by
  intro l
  induction l with
  | nil => intro _; rfl
  | cons i t ih =>
    intro hsub
    have hit : i ∈ plan := hsub i (by simp)
    rw [planNs, List.map_cons, List.filter_cons, List.filterMap_cons]
    rw [show (List.map (fun i => (nameOf tops plan i, Bnd.val (plan.indexOf i))) t)
        = planNs tops plan t from rfl]
    cases hfi : tops.find? (fun p => p.2 == i) with
    | some p =>
      have hname : nameOf tops plan i = p.1 := by rw [nameOf, hfi]
      have hnot : ((delList h tops plan).contains (nameOf tops plan i)) = false := by
        rw [hname]
        exact contains_false_iff.mpr (top_not_in_delList HN hit hfi)
      rw [hnot]
      simp only [Bool.not_false, if_true]
      rw [ih (fun x hx => hsub x (by simp [hx]))]
      simp [hname]
    | none =>
      have hmem : nameOf tops plan i ∈ delList h tops plan := by
        rw [delList]
        exact List.mem_append_left _ (List.mem_append_right _ (mem_genNames hit hfi))
      have hcon : ((delList h tops plan).contains (nameOf tops plan i)) = true :=
        contains_true_iff.mpr hmem
      rw [hcon]
      simp only [Bool.not_true, Bool.false_eq_true, if_false]
      exact ih (fun x hx => hsub x (by simp [hx]))

theorem execBody_flat {h : Heap} {th : Option Nat} {tops : List (String × ObjId)}
    {plan : List ObjId} {nsI : Ns}
    (HN : NamesOK h tops) (hord : ordered h plan) (hnd : plan.Nodup)
    (hkeys : ∀ x ∈ plan, x ∈ h.keys)
    (hnsI : ∀ x ∈ plan, nameOf tops plan x ∉ nsI.map Prod.fst) :
    ∀ (rest pre : List ObjId), plan = pre ++ rest →
      execStmts (sidecarOf h th plan)
        ⟨(newHeap h plan).take pre.length, pre.length, nsI ++ planNs tops plan pre⟩
        (bodyAux h th tops plan false (scCount h th pre) rest)
      = .ok ⟨newHeap h plan, plan.length, nsI ++ planNs tops plan plan⟩ := by
  intro rest
  induction rest with
  | nil =>
    intro pre hsplit
    rw [List.append_nil] at hsplit
    subst hsplit
    rw [bodyAux, execStmts_nil, List.take_of_length_le (le_of_eq newHeap_length)]
  | cons i rest' ih =>
    intro pre hsplit
    have hiplan : i ∈ plan := by rw [hsplit]; simp
    obtain ⟨o, hfind⟩ : ∃ o, h.find? i = some o := by
      have := find?_isSome_iff.mpr (hkeys i hiplan)
      cases hf : h.find? i with
      | none => rw [hf] at this; exact absurd this (by simp)
      | some o => exact ⟨o, rfl⟩
    rw [bodyAux, hfind]
    simp only [Bool.false_eq_true, if_false]
    rw [execStmts_append]
    rw [execStep_flat HN hord hnd hsplit hfind hnsI]
    have hsc : scCount h th pre + (if isLargeArr th o then 1 else 0) =
        scCount h th (pre ++ [i]) := (scCount_snoc hfind).symm
    rw [hsc]
    have := ih (pre ++ [i]) (by rw [hsplit, List.append_assoc]; rfl)
    rw [List.length_append] at this
    exact this


theorem execStmts_append_ok {A : List (List Int)} {es es' : ES} {l1 l2 : List Stmt}
    (hx : execStmts A es l1 = .ok es') :
    execStmts A es (l1 ++ l2) = execStmts A es' l2 := by
  rw [execStmts_append, hx]

theorem full_ns_nodup {h : Heap} {tops : List (String × ObjId)} {plan : List ObjId}
    (HN : NamesOK h tops) (HA : AliasesOK h plan) (hnd : plan.Nodup) :
    ((([(("__builtins__" : String), Bnd.special), ("_arrays", Bnd.special)] ++
        importNs (importsOf h plan) ++ planNs tops plan plan).map Prod.fst)).Nodup := by
  rw [List.map_append, List.map_append]
  rw [List.nodup_append]
  refine ⟨?_, ?_, ?_⟩
  · rw [List.nodup_append]
    refine ⟨by decide, ?_, ?_⟩
    · rw [importNs, List.map_map]
      exact HA
    · intro a ha hb
      rw [importNs, List.map_map] at hb
      obtain ⟨r, hr, hre⟩ := List.mem_map.mp hb
      have hsp := alias_ne_special HN r hr
      rcases (by simpa using ha : a = "__builtins__" ∨ a = "_arrays") with he | he
      · exact hsp.1 (hre.trans he)
      · exact hsp.2 (hre.trans he)
  · exact planNs_nodup HN hnd (fun x hx => hx)
  · intro a ha hb
    rw [planNs_names] at hb
    obtain ⟨i, hi, hie⟩ := List.mem_map.mp hb
    rcases List.mem_append.mp ha with hsp | hal
    · have hns := node_ne_special HN i hi
      rcases (by simpa using hsp : a = "__builtins__" ∨ a = "_arrays") with he | he
      · exact hns.1 (by rw [hie, ← he])
      · exact hns.2 (by rw [hie, ← he])
    · rw [importNs, List.map_map] at hal
      obtain ⟨r, hr, hre⟩ := List.mem_map.mp hal
      exact alias_ne_node HN r hr i hi (hie.trans hre.symm)

/-- End-to-end execution of a flat rendering: the emitted module, executed
on the sidecar it was rendered with, reconstructs the canonical heap and
binds exactly the user-visible top-level names. -/
theorem renderFlat_exec {h : Heap} {th : Option Nat} {tops : List (String × ObjId)}
    {plan : List ObjId}
    (HN : NamesOK h tops) (HA : AliasesOK h plan)
    (hb : buildPlan h (tops.map Prod.snd) = .ok plan) :
    renderFlatStmts h th tops = .ok (
      (importsOf h plan).map (fun r => Stmt.fromImport r.1 r.2.1 r.2.2)
        ++ mkBody h th tops plan false
        ++ (importsOf h plan).map (fun r => Stmt.sdel r.2.2)
        ++ (genNames tops plan).map Stmt.sdel
        ++ [Stmt.cleanup], sidecarOf h th plan) ∧
    execSource (sidecarOf h th plan)
      ((importsOf h plan).map (fun r => Stmt.fromImport r.1 r.2.1 r.2.2)
        ++ mkBody h th tops plan false
        ++ (importsOf h plan).map (fun r => Stmt.sdel r.2.2)
        ++ (genNames tops plan).map Stmt.sdel
        ++ [Stmt.cleanup])
      = .ok ⟨newHeap h plan, plan.length, finalNs tops plan⟩ := by
  obtain ⟨hord, hnd, hmemtops, hkeys⟩ := buildPlan_ok_props hb
  constructor
  · rw [renderFlatStmts, hb]
    rfl
  · rw [execSource]
    have s1 : execStmts (sidecarOf h th plan) initES
        ((importsOf h plan).map (fun r => Stmt.fromImport r.1 r.2.1 r.2.2))
        = .ok ⟨[], 0, initES.ns ++ importNs (importsOf h plan)⟩ := by
      apply execImports _ initES HA
      intro r hr
      have hsp := alias_ne_special HN r hr
      intro hm
      rcases (by simpa [initES] using hm : r.2.2 = "__builtins__" ∨ r.2.2 = "_arrays") with he | he
      · exact hsp.1 he
      · exact hsp.2 he
    have hnsI : ∀ x ∈ plan, nameOf tops plan x ∉
        (initES.ns ++ importNs (importsOf h plan)).map Prod.fst := by
      intro x hx hm
      rw [List.map_append] at hm
      rcases List.mem_append.mp hm with hsp | hal
      · have hns := node_ne_special HN x hx
        rcases (by simpa [initES] using hsp :
          nameOf tops plan x = "__builtins__" ∨ nameOf tops plan x = "_arrays") with he | he
        · exact hns.1 he
        · exact hns.2 he
      · rw [importNs, List.map_map] at hal
        obtain ⟨r, hr, hre⟩ := List.mem_map.mp hal
        exact alias_ne_node HN r hr x hx hre.symm
    have s2 : execStmts (sidecarOf h th plan)
        ⟨[], 0, initES.ns ++ importNs (importsOf h plan)⟩
        (mkBody h th tops plan false)
        = .ok ⟨newHeap h plan, plan.length,
            (initES.ns ++ importNs (importsOf h plan)) ++ planNs tops plan plan⟩ := by
      have hbody := @execBody_flat h th tops plan _ HN hord hnd hkeys hnsI plan [] rfl
      rw [show planNs tops plan ([] : List ObjId) = [] from rfl, List.append_nil] at hbody
      exact hbody
    have t2 : execStmts (sidecarOf h th plan) initES
        ((importsOf h plan).map (fun r => Stmt.fromImport r.1 r.2.1 r.2.2)
          ++ mkBody h th tops plan false)
        = .ok ⟨newHeap h plan, plan.length,
            (initES.ns ++ importNs (importsOf h plan)) ++ planNs tops plan plan⟩ := by
      rw [execStmts_append_ok s1]
      exact s2
    have s3 : execStmts (sidecarOf h th plan)
        (⟨newHeap h plan, plan.length,
          (initES.ns ++ importNs (importsOf h plan)) ++ planNs tops plan plan⟩ : ES)
        ((importsOf h plan).map (fun r => Stmt.sdel r.2.2))
        = .ok ⟨newHeap h plan, plan.length,
            List.foldl nsDel
              ((initES.ns ++ importNs (importsOf h plan)) ++ planNs tops plan plan)
              ((importsOf h plan).map (fun r => r.2.2))⟩ := by
      rw [show (importsOf h plan).map (fun r => Stmt.sdel r.2.2)
          = ((importsOf h plan).map (fun r => r.2.2)).map Stmt.sdel from by
        rw [List.map_map]; rfl]
      exact execDels _ _
    have s4 : execStmts (sidecarOf h th plan)
        (⟨newHeap h plan, plan.length,
          List.foldl nsDel
            ((initES.ns ++ importNs (importsOf h plan)) ++ planNs tops plan plan)
            ((importsOf h plan).map (fun r => r.2.2))⟩ : ES)
        ((genNames tops plan).map Stmt.sdel)
        = .ok ⟨newHeap h plan, plan.length,
            List.foldl nsDel
              (List.foldl nsDel
                ((initES.ns ++ importNs (importsOf h plan)) ++ planNs tops plan plan)
                ((importsOf h plan).map (fun r => r.2.2)))
              (genNames tops plan)⟩ := execDels _ _
    have hcb : (delList h tops plan).contains "__builtins__" = true :=
      contains_true_iff.mpr (by rw [delList]; exact List.mem_append_right _ (by simp))
    have hca : (delList h tops plan).contains "_arrays" = true :=
      contains_true_iff.mpr (by rw [delList]; exact List.mem_append_right _ (by simp))
    have hnsfinal : nsDel (nsDel
        (List.foldl nsDel
          (List.foldl nsDel
            ((initES.ns ++ importNs (importsOf h plan)) ++ planNs tops plan plan)
            ((importsOf h plan).map (fun r => r.2.2)))
          (genNames tops plan)) "__builtins__") "_arrays" = finalNs tops plan := by
      have e1 : nsDel (nsDel
          (List.foldl nsDel
            (List.foldl nsDel
              ((initES.ns ++ importNs (importsOf h plan)) ++ planNs tops plan plan)
              ((importsOf h plan).map (fun r => r.2.2)))
            (genNames tops plan)) "__builtins__") "_arrays"
          = List.foldl nsDel
              ((initES.ns ++ importNs (importsOf h plan)) ++ planNs tops plan plan)
              (delList h tops plan) := by
        rw [delList, List.foldl_append, List.foldl_append]
        rfl
      rw [e1]
      have hnodup := full_ns_nodup (h := h) HN HA hnd
      rw [foldl_nsDel_filter _ _ (by exact hnodup)]
      rw [List.filter_append, List.filter_append]
      have p1 : (initES.ns).filter
          (fun p => !((delList h tops plan).contains p.1)) = [] := by
        show List.filter _ [("__builtins__", Bnd.special), ("_arrays", Bnd.special)] = []
        have hmb : "__builtins__" ∈ delList h tops plan := contains_true_iff.mp hcb
        have hma : "_arrays" ∈ delList h tops plan := contains_true_iff.mp hca
        rw [List.filter_cons, List.filter_cons]
        simp [hmb, hma]
      have p2 : (importNs (importsOf h plan)).filter
          (fun p => !((delList h tops plan).contains p.1)) = [] := by
        apply List.filter_eq_nil_iff.mpr
        intro p hp
        rw [importNs] at hp
        obtain ⟨r, hr, hre⟩ := List.mem_map.mp hp
        have hmem : p.1 ∈ delList h tops plan := by
          rw [delList]
          apply List.mem_append_left
          apply List.mem_append_left
          exact List.mem_map.mpr ⟨r, hr, by rw [← hre]⟩
        simpa using hmem
      have p3 := planNs_filter (h := h) HN plan (fun x hx => hx)
      rw [p1, p2, p3]
      rw [finalNs]
      rfl
    rw [List.append_assoc, List.append_assoc]
    rw [execStmts_append_ok t2, execStmts_append_ok s3, execStmts_append_ok s4]
    rw [execStmts_cons_ok (show execStmt (sidecarOf h th plan)
      (⟨newHeap h plan, plan.length,
        List.foldl nsDel
          (List.foldl nsDel
            ((initES.ns ++ importNs (importsOf h plan)) ++ planNs tops plan plan)
            ((importsOf h plan).map (fun r => r.2.2)))
          (genNames tops plan)⟩ : ES) Stmt.cleanup
      = Except.ok ⟨newHeap h plan, plan.length, nsDel (nsDel
          (List.foldl nsDel
            (List.foldl nsDel
              ((initES.ns ++ importNs (importsOf h plan)) ++ planNs tops plan plan)
              ((importsOf h plan).map (fun r => r.2.2)))
            (genNames tops plan)) "__builtins__") "_arrays"⟩ from rfl), execStmts_nil]
    rw [show (nsDel (nsDel
        (List.foldl nsDel
          (List.foldl nsDel
            ((initES.ns ++ importNs (importsOf h plan)) ++ planNs tops plan plan)
            ((importsOf h plan).map (fun r => r.2.2)))
          (genNames tops plan)) "__builtins__") "_arrays") = finalNs tops plan from hnsfinal]

theorem newHeap_find? {h : Heap} {plan : List ObjId} {k : Nat} (hk : k < plan.length) :
    (newHeap h plan).find? k =
      some (renameObj (fun c => plan.indexOf c)
        ((h.find? (plan.get ⟨k, hk⟩)).getD (.oint 0))) := by
  apply lookup_of_mem_nodup
  · rw [show (newHeap h plan).map Prod.fst = Heap.keys (newHeap h plan) from rfl]
    rw [show Heap.keys (newHeap h plan) = (newHeap h plan).map Prod.fst from rfl]
    rw [newHeap_keys]
    exact List.nodup_range _
  · exact List.mem_iff_getElem?.mpr ⟨k, newHeap_getElem? hk⟩

/-- Round-trip structural equality: every node of the original graph
unfolds, at every depth, to the same tree as its reconstruction in the
canonical heap. -/
theorem unfold_newHeap {h : Heap} {plan : List ObjId}
    (hord : ordered h plan) (hkeys : ∀ x ∈ plan, x ∈ h.keys) :
    ∀ (fuel : Nat), ∀ i ∈ plan,
      unfoldObj h fuel i = unfoldObj (newHeap h plan) fuel (plan.indexOf i) := by
  intro fuel
  induction fuel with
  | zero => intro i _; rfl
  | succ f ih =>
    intro i hi
    obtain ⟨o, hfind⟩ : ∃ o, h.find? i = some o := by
      have := find?_isSome_iff.mpr (hkeys i hi)
      cases hf : h.find? i with
      | none => rw [hf] at this; exact absurd this (by simp)
      | some o => exact ⟨o, rfl⟩
    have hlt : plan.indexOf i < plan.length := List.indexOf_lt_length.mpr hi
    have hget : plan.get ⟨plan.indexOf i, hlt⟩ = i := List.getElem_indexOf hlt
    have hnf : (newHeap h plan).find? (plan.indexOf i) =
        some (renameObj (fun c => plan.indexOf c) o) := by
      rw [newHeap_find? hlt, hget, hfind]
      rfl
    rw [unfoldObj, unfoldObj, hfind, hnf]
    cases o with
    | oint n => rfl
    | orange a b => rfl
    | oarr es => rfl
    | ouser m c args st hs hg => rfl
    | olist es =>
      simp only [renameObj]
      rw [List.map_map]
      congr 1
      apply List.map_congr_left
      intro c hc
      exact ih c (ordered_mem_closed hord i hi c ⟨Obj.olist es, hfind, hc⟩)

theorem mem_enum_getElem? {α : Type} {l : List α} {p : Nat × α} (hp : p ∈ l.enum) :
    l[p.1]? = some p.2 := by
  obtain ⟨k, hk⟩ := List.mem_iff_getElem?.mp hp
  rw [List.getElem?_enum] at hk
  cases hl : l[k]? with
  | none => rw [hl] at hk; simp at hk
  | some x =>
    rw [hl] at hk
    simp only [Option.map_some', Option.some.injEq] at hk
    rw [← hk]
    exact hl

theorem enum_snd_mem {α : Type} {l : List α} {p : Nat × α} (hp : p ∈ l.enum) : p.2 ∈ l :=
  List.mem_iff_getElem?.mpr ⟨p.1, mem_enum_getElem? hp⟩

theorem enum_fst_inj {α : Type} {l : List α} {p q : Nat × α}
    (hp : p ∈ l.enum) (hq : q ∈ l.enum) (he : p.1 = q.1) : p = q := by
  have h1 := mem_enum_getElem? hp
  rw [he] at h1
  have h2 := (mem_enum_getElem? hq).symm.trans h1
  exact Prod.ext_iff.mpr ⟨he, (Option.some.inj h2).symm⟩

theorem loc_data (s : String) : ("_l_" ++ s).data = '_' :: 'l' :: '_' :: s.data := by
  simp [String.data_append]

theorem loc_inj {j k : Nat} (h : "_l_" ++ natStr j = "_l_" ++ natStr k) : j = k := by
  have hd := congrArg String.data h
  rw [loc_data, loc_data] at hd
  simp only [List.cons.injEq, true_and] at hd
  exact natStr_inj (str_ext hd)

theorem execScopedList (A : List (List Int)) (H : Heap) (k : Nat) (ns0 : Ns) (nm : String)
    (es : List ObjId) (f : ObjId → String) (g : ObjId → ObjId)
    (hlook : ∀ p ∈ es.enum, lookupVal ns0 (f p.2) = .ok (g p.2)) :
    execStmt A ⟨H, k, ns0⟩ (scopedOf nm (.elist (es.map f)))
      = .ok ⟨H ++ [(k, .olist (es.map g))], k + 1, nsSet ns0 nm (.val k)⟩ := by
  have hEnumNd : es.enum.Nodup :=
    List.Nodup.of_map Prod.fst (by rw [List.enum_map_fst]; exact List.nodup_range _)
  have hparams : (es.map f).enum.map (fun p => ("_l_" ++ natStr p.1, p.2))
      = es.enum.map (fun p => ("_l_" ++ natStr p.1, f p.2)) := by
    rw [List.enum_map, List.map_map]
    apply List.map_congr_left
    rintro ⟨a, b⟩ _
    rfl
  have hlocs : (es.enum.map (fun p => ("_l_" ++ natStr p.1, f p.2))).mapM
      (fun p => (do pure (p.1, Bnd.val (← lookupVal ns0 p.2)) : Except Err (String × Bnd)))
      = .ok (es.enum.map (fun p => ("_l_" ++ natStr p.1, Bnd.val (g p.2)))) := by
    rw [mapM_map]
    apply mapM_ok
    intro p hp
    show (do pure ("_l_" ++ natStr p.1, Bnd.val (← lookupVal ns0 (f p.2)))
        : Except Err (String × Bnd)) = _
    rw [hlook p hp]
    rfl
  have hlocNd : ((es.enum.map (fun p => ("_l_" ++ natStr p.1, Bnd.val (g p.2)))).map
      Prod.fst).Nodup := by
    rw [List.map_map]
    rw [show (Prod.fst ∘ fun p : Nat × ObjId => ("_l_" ++ natStr p.1, Bnd.val (g p.2)))
        = fun p : Nat × ObjId => "_l_" ++ natStr p.1 from rfl]
    exact List.Nodup.map_on
      (fun q hq r hr he => enum_fst_inj hq hr (loc_inj he)) hEnumNd
  have hnames : (es.enum.map (fun p => ("_l_" ++ natStr p.1, f p.2))).map Prod.fst
      = es.enum.map (fun p => "_l_" ++ natStr p.1) := by
    rw [List.map_map]
    rfl
  have hids : (es.enum.map (fun p => "_l_" ++ natStr p.1)).mapM
      (lookupVal (es.enum.map (fun p => ("_l_" ++ natStr p.1, Bnd.val (g p.2)))))
      = .ok (es.enum.map (fun p => g p.2)) := by
    rw [mapM_map]
    apply mapM_ok
    intro p hp
    show lookupVal (es.enum.map (fun q => ("_l_" ++ natStr q.1, Bnd.val (g q.2))))
        ("_l_" ++ natStr p.1) = Except.ok (g p.2)
    rw [lookupVal, lookup_of_mem_nodup hlocNd (List.mem_map.mpr ⟨p, hp, rfl⟩)]
  have henumg : es.enum.map (fun p => g p.2) = es.map g := by
    rw [show (fun p : Nat × ObjId => g p.2) = g ∘ Prod.snd from rfl, ← List.map_map,
      List.enum_map_snd]
  show (do
    let locs ← ((es.map f).enum.map
        (fun p : Nat × String => ("_l_" ++ natStr p.1, p.2))).mapM
      (fun p : String × String =>
        (do pure (p.1, Bnd.val (← lookupVal ns0 p.2)) : Except Err (String × Bnd)))
    let r ← evalExpr A ⟨H, k, locs⟩
      (.elist (((es.map f).enum.map
        (fun p : Nat × String => ("_l_" ++ natStr p.1, p.2))).map Prod.fst))
    Except.ok (⟨r.1.heap, r.1.next, nsSet ns0 nm (Bnd.val r.2)⟩ : ES)) = _
  rw [hparams, hlocs]
  show (do
    let r ← evalExpr A
      ⟨H, k, es.enum.map (fun p : Nat × ObjId => ("_l_" ++ natStr p.1, Bnd.val (g p.2)))⟩
      (.elist ((es.enum.map
        (fun p : Nat × ObjId => ("_l_" ++ natStr p.1, f p.2))).map Prod.fst))
    Except.ok (⟨r.1.heap, r.1.next, nsSet ns0 nm (Bnd.val r.2)⟩ : ES)) = _
  rw [hnames]
  simp only [evalExpr]
  rw [hids, henumg]
  rfl

theorem execStep_scoped {h : Heap} {th : Option Nat} {tops : List (String × ObjId)}
    {plan pre rest : List ObjId} {i : ObjId} {o : Obj} {nsI : Ns}
    (HN : NamesOK h tops) (hord : ordered h plan) (hnd : plan.Nodup)
    (hsplit : plan = pre ++ i :: rest) (hfind : h.find? i = some o)
    (hnsI : ∀ x ∈ plan, nameOf tops plan x ∉ nsI.map Prod.fst) :
    execStmts (sidecarOf h th plan)
      ⟨(newHeap h plan).take pre.length, pre.length, nsI ++ planNs tops plan pre⟩
      (scopedOf (nameOf tops plan i)
          (repNode th (nameOf tops plan i) (nameOf tops plan) (scCount h th pre) o).1
        :: (repNode th (nameOf tops plan i) (nameOf tops plan) (scCount h th pre) o).2)
    = .ok ⟨(newHeap h plan).take (pre.length + 1), pre.length + 1,
        nsI ++ planNs tops plan (pre ++ [i])⟩ := by
  have hsub : ∀ x ∈ pre, x ∈ plan := fun x hx => by
    rw [hsplit]; exact List.mem_append_left _ hx
  have hpre_nd : pre.Nodup := by
    rw [hsplit] at hnd; exact hnd.of_append_left
  have hiplan : i ∈ plan := by rw [hsplit]; simp
  have hip : i ∉ pre := plan_split_not_mem_pre hsplit hnd
  have hidxp : plan.indexOf i = pre.length := by
    rw [hsplit]; exact indexOf_concat_self (hsplit ▸ hnd)
  have hfresh : nameOf tops plan i ∉ (nsI ++ planNs tops plan pre).map Prod.fst :=
    stage_fresh HN hsub hnsI hip hiplan
  have hk : pre.length < plan.length := plan_split_lt hsplit
  have htake : (newHeap h plan).take (pre.length + 1) =
      (newHeap h plan).take pre.length ++
        [(pre.length, renameObj (fun c => plan.indexOf c) o)] := by
    rw [newHeap_take_succ hk, plan_split_get hsplit, hfind]
    rfl
  have hns' : nsSet (nsI ++ planNs tops plan pre) (nameOf tops plan i)
      (Bnd.val pre.length) = nsI ++ planNs tops plan (pre ++ [i]) := by
    rw [nsSet_fresh hfresh, planNs_snoc, hidxp, List.append_assoc]
  have hnsapp : nsI ++ planNs tops plan (pre ++ [i]) =
      (nsI ++ planNs tops plan pre) ++ [(nameOf tops plan i, Bnd.val pre.length)] := by
    rw [planNs_snoc, hidxp, List.append_assoc]
  cases o with
  | oint n =>
    rw [repNode]
    have h1 : execStmt (sidecarOf h th plan)
        ⟨(newHeap h plan).take pre.length, pre.length, nsI ++ planNs tops plan pre⟩
        (scopedOf (nameOf tops plan i) (Expr.eint n))
        = .ok ⟨(newHeap h plan).take pre.length ++ [(pre.length, Obj.oint n)],
            pre.length + 1,
            nsSet (nsI ++ planNs tops plan pre) (nameOf tops plan i)
              (Bnd.val pre.length)⟩ := rfl
    rw [execStmts_cons_ok h1, execStmts_nil, hns', htake]
    rfl
  | orange a b =>
    rw [repNode]
    have h1 : execStmt (sidecarOf h th plan)
        ⟨(newHeap h plan).take pre.length, pre.length, nsI ++ planNs tops plan pre⟩
        (scopedOf (nameOf tops plan i) (Expr.erange a b))
        = .ok ⟨(newHeap h plan).take pre.length ++ [(pre.length, Obj.orange a b)],
            pre.length + 1,
            nsSet (nsI ++ planNs tops plan pre) (nameOf tops plan i)
              (Bnd.val pre.length)⟩ := rfl
    rw [execStmts_cons_ok h1, execStmts_nil, hns', htake]
    rfl
  | olist es =>
    rw [repNode]
    have h1 := execScopedList (sidecarOf h th plan) ((newHeap h plan).take pre.length)
      pre.length (nsI ++ planNs tops plan pre) (nameOf tops plan i) es
      (nameOf tops plan) (fun c => plan.indexOf c)
      (fun p hp => lookupVal_stage HN hpre_nd hsub hnsI
        (child_mem_pre hord hsplit hfind (by simpa [Obj.children] using enum_snd_mem hp)))
    rw [execStmts_cons_ok h1, execStmts_nil, hns', htake]
    rfl
  | oarr es =>
    rw [repNode]
    by_cases hl : isLarge th es.length
    · rw [if_pos hl]
      have h1 : execStmt (sidecarOf h th plan)
          ⟨(newHeap h plan).take pre.length, pre.length, nsI ++ planNs tops plan pre⟩
          (scopedOf (nameOf tops plan i) (Expr.earrRef (scCount h th pre)))
          = .ok ⟨(newHeap h plan).take pre.length ++ [(pre.length, Obj.oarr es)],
              pre.length + 1,
              nsSet (nsI ++ planNs tops plan pre) (nameOf tops plan i)
                (Bnd.val pre.length)⟩ := by
        simp only [scopedOf, execStmt, evalExpr]
        rw [sidecar_getElem hsplit hfind hl]
        rfl
      rw [execStmts_cons_ok h1, execStmts_nil, hns', htake]
      rfl
    · rw [if_neg hl]
      have h1 : execStmt (sidecarOf h th plan)
          ⟨(newHeap h plan).take pre.length, pre.length, nsI ++ planNs tops plan pre⟩
          (scopedOf (nameOf tops plan i) (Expr.earr es))
          = .ok ⟨(newHeap h plan).take pre.length ++ [(pre.length, Obj.oarr es)],
              pre.length + 1,
              nsSet (nsI ++ planNs tops plan pre) (nameOf tops plan i)
                (Bnd.val pre.length)⟩ := rfl
      rw [execStmts_cons_ok h1, execStmts_nil, hns', htake]
      rfl
  | ouser m cls args st hs hg =>
    rw [repNode]
    have h1 : execStmt (sidecarOf h th plan)
        ⟨(newHeap h plan).take pre.length, pre.length, nsI ++ planNs tops plan pre⟩
        (scopedOf (nameOf tops plan i) (Expr.enew m cls args))
        = .ok ⟨(newHeap h plan).take pre.length ++
            [(pre.length, Obj.ouser m cls args [] false false)],
            pre.length + 1,
            (nsI ++ planNs tops plan pre) ++
              [(nameOf tops plan i, Bnd.val pre.length)]⟩ := by
      have e0 : execStmt (sidecarOf h th plan)
          ⟨(newHeap h plan).take pre.length, pre.length, nsI ++ planNs tops plan pre⟩
          (scopedOf (nameOf tops plan i) (Expr.enew m cls args))
          = .ok ⟨(newHeap h plan).take pre.length ++
              [(pre.length, Obj.ouser m cls args [] false false)],
              pre.length + 1,
              nsSet (nsI ++ planNs tops plan pre) (nameOf tops plan i)
                (Bnd.val pre.length)⟩ := rfl
      rw [e0, nsSet_fresh hfresh]
    have hlook : lookupVal ((nsI ++ planNs tops plan pre) ++
        [(nameOf tops plan i, Bnd.val pre.length)]) (nameOf tops plan i)
        = .ok pre.length := by
      rw [lookupVal, lookup_append_right (by simpa using hfresh)]
      simp [List.lookup]
    cases hs with
    | true =>
      simp only [reduceIte]
      rw [execStmts_cons_ok h1]
      have h2 : execStmt (sidecarOf h th plan)
          ⟨(newHeap h plan).take pre.length ++
              [(pre.length, Obj.ouser m cls args [] false false)],
            pre.length + 1,
            (nsI ++ planNs tops plan pre) ++
              [(nameOf tops plan i, Bnd.val pre.length)]⟩
          (Stmt.setst (nameOf tops plan i) st)
          = .ok ⟨(newHeap h plan).take pre.length ++
              [(pre.length, Obj.ouser m cls args st false false)],
            pre.length + 1,
            (nsI ++ planNs tops plan pre) ++
              [(nameOf tops plan i, Bnd.val pre.length)]⟩ := by
        simp only [execStmt]
        rw [hlook]
        show (do
          let h' ← heapUpd ((newHeap h plan).take pre.length ++
            [(pre.length, Obj.ouser m cls args [] false false)]) pre.length
            (setObjState (fun _ => st))
          pure { heap := h', next := pre.length + 1,
                 ns := (nsI ++ planNs tops plan pre) ++
                   [(nameOf tops plan i, Bnd.val pre.length)] } : Except Err ES) = _
        rw [heapUpd_append_key newHeap_take_keys (rfl :
          setObjState (fun _ => st) (Obj.ouser m cls args [] false false)
            = .ok (Obj.ouser m cls args st false false))]
        rfl
      rw [execStmts_cons_ok h2, execStmts_nil, hnsapp, htake]
      rfl
    | false =>
      simp only [Bool.false_eq_true, reduceIte]
      rw [execStmts_cons_ok h1]
      have h2 : execStmt (sidecarOf h th plan)
          ⟨(newHeap h plan).take pre.length ++
              [(pre.length, Obj.ouser m cls args [] false false)],
            pre.length + 1,
            (nsI ++ planNs tops plan pre) ++
              [(nameOf tops plan i, Bnd.val pre.length)]⟩
          (Stmt.dictUpd (nameOf tops plan i) st)
          = .ok ⟨(newHeap h plan).take pre.length ++
              [(pre.length, Obj.ouser m cls args st false false)],
            pre.length + 1,
            (nsI ++ planNs tops plan pre) ++
              [(nameOf tops plan i, Bnd.val pre.length)]⟩ := by
        simp only [execStmt]
        rw [hlook]
        show (do
          let h' ← heapUpd ((newHeap h plan).take pre.length ++
            [(pre.length, Obj.ouser m cls args [] false false)]) pre.length
            (setObjState (fun old => mergeState old st))
          pure { heap := h', next := pre.length + 1,
                 ns := (nsI ++ planNs tops plan pre) ++
                   [(nameOf tops plan i, Bnd.val pre.length)] } : Except Err ES) = _
        have hms : mergeState [] st = st := by simp [mergeState]
        rw [heapUpd_append_key newHeap_take_keys (by rw [setObjState, hms] :
          setObjState (fun old => mergeState old st) (Obj.ouser m cls args [] false false)
            = .ok (Obj.ouser m cls args st false false))]
        rfl
      rw [execStmts_cons_ok h2, execStmts_nil, hnsapp, htake]
      rfl

theorem execBody_scoped {h : Heap} {th : Option Nat} {tops : List (String × ObjId)}
    {plan : List ObjId} {nsI : Ns}
    (HN : NamesOK h tops) (hord : ordered h plan) (hnd : plan.Nodup)
    (hkeys : ∀ x ∈ plan, x ∈ h.keys)
    (hnsI : ∀ x ∈ plan, nameOf tops plan x ∉ nsI.map Prod.fst) :
    ∀ (rest pre : List ObjId), plan = pre ++ rest →
      execStmts (sidecarOf h th plan)
        ⟨(newHeap h plan).take pre.length, pre.length, nsI ++ planNs tops plan pre⟩
        (bodyAux h th tops plan true (scCount h th pre) rest)
      = .ok ⟨newHeap h plan, plan.length, nsI ++ planNs tops plan plan⟩ := by
  intro rest
  induction rest with
  | nil =>
    intro pre hsplit
    rw [List.append_nil] at hsplit
    subst hsplit
    rw [bodyAux, execStmts_nil, List.take_of_length_le (le_of_eq newHeap_length)]
  | cons i rest' ih =>
    intro pre hsplit
    have hiplan : i ∈ plan := by rw [hsplit]; simp
    obtain ⟨o, hfind⟩ : ∃ o, h.find? i = some o := by
      have := find?_isSome_iff.mpr (hkeys i hiplan)
      cases hf : h.find? i with
      | none => rw [hf] at this; exact absurd this (by simp)
      | some o => exact ⟨o, rfl⟩
    rw [bodyAux, hfind]
    simp only [reduceIte]
    rw [execStmts_append]
    rw [execStep_scoped HN hord hnd hsplit hfind hnsI]
    have hsc : scCount h th pre + (if isLargeArr th o then 1 else 0) =
        scCount h th (pre ++ [i]) := (scCount_snoc hfind).symm
    rw [hsc]
    have := ih (pre ++ [i]) (by rw [hsplit, List.append_assoc]; rfl)
    rw [List.length_append] at this
    exact this

theorem top_not_in_scopedDels {h : Heap} {tops : List (String × ObjId)} {plan : List ObjId}
    (HN : NamesOK h tops) {i : ObjId} (hi : i ∈ plan) {p : String × ObjId}
    (hfi : tops.find? (fun q => q.2 == i) = some p) :
    p.1 ∉ genNames tops plan ++ ["__builtins__", "_arrays"] := by
  have hpm := List.mem_of_find?_eq_some hfi
  have hname : nameOf tops plan i = p.1 := by rw [nameOf, hfi]
  intro hmem
  rcases List.mem_append.mp hmem with hgen | hlast
  · obtain ⟨j, hjp, hfj, hje⟩ := genNames_shape hgen
    have hje' : nameOf tops plan j = "_g" ++ natStr (plan.indexOf j) := by rw [nameOf, hfj]
    rw [hje'] at hje
    exact gen_ne_top (HN.2.2.1 p hpm).2 _ hje
  · have hb := node_ne_special HN i hi
    rw [hname] at hb
    rcases (by simpa using hlast : p.1 = "__builtins__" ∨ p.1 = "_arrays") with he | he
    · exact hb.1 he
    · exact hb.2 he

theorem planNs_filter_scoped {h : Heap} {tops : List (String × ObjId)} {plan : List ObjId}
    (HN : NamesOK h tops) :
    ∀ l : List ObjId, (∀ x ∈ l, x ∈ plan) →
      (planNs tops plan l).filter
        (fun p => !((genNames tops plan ++ ["__builtins__", "_arrays"]).contains p.1))
      = l.filterMap (fun i =>
          (tops.find? (fun p => p.2 == i)).map (fun p => (p.1, Bnd.val (plan.indexOf i)))) := by
  intro l
  induction l with
  | nil => intro _; rfl
  | cons i t ih =>
    intro hsub
    have hit : i ∈ plan := hsub i (by simp)
    rw [planNs, List.map_cons, List.filter_cons, List.filterMap_cons]
    rw [show (List.map (fun i => (nameOf tops plan i, Bnd.val (plan.indexOf i))) t)
        = planNs tops plan t from rfl]
    cases hfi : tops.find? (fun p => p.2 == i) with
    | some p =>
      have hname : nameOf tops plan i = p.1 := by rw [nameOf, hfi]
      have hnot : ((genNames tops plan ++ ["__builtins__", "_arrays"]).contains
          (nameOf tops plan i)) = false := by
        rw [hname]
        exact contains_false_iff.mpr (top_not_in_scopedDels HN hit hfi)
      rw [hnot]
      simp only [Bool.not_false, if_true]
      rw [ih (fun x hx => hsub x (by simp [hx]))]
      simp [hname]
    | none =>
      have hmem : nameOf tops plan i ∈ genNames tops plan ++ ["__builtins__", "_arrays"] :=
        List.mem_append_left _ (mem_genNames hit hfi)
      have hcon : ((genNames tops plan ++ ["__builtins__", "_arrays"]).contains
          (nameOf tops plan i)) = true := contains_true_iff.mpr hmem
      rw [hcon]
      simp only [Bool.not_true, Bool.false_eq_true, if_false]
      exact ih (fun x hx => hsub x (by simp [hx]))

theorem full_ns_nodup_scoped {h : Heap} {tops : List (String × ObjId)} {plan : List ObjId}
    (HN : NamesOK h tops) (hnd : plan.Nodup) :
    ((([(("__builtins__" : String), Bnd.special), ("_arrays", Bnd.special)] ++
        planNs tops plan plan).map Prod.fst)).Nodup := by
  rw [List.map_append, List.nodup_append]
  refine ⟨by decide, planNs_nodup HN hnd (fun x hx => hx), ?_⟩
  intro a ha hb
  rw [planNs_names] at hb
  obtain ⟨i, hi, hie⟩ := List.mem_map.mp hb
  have hns := node_ne_special HN i hi
  rcases (by simpa using ha : a = "__builtins__" ∨ a = "_arrays") with he | he
  · exact hns.1 (by rw [hie, ← he])
  · exact hns.2 (by rw [hie, ← he])

/-- End-to-end execution of a scoped rendering: the emitted module, executed
on the sidecar it was rendered with, reconstructs the same canonical heap
and namespace as the flat rendering. -/
theorem renderScoped_exec {h : Heap} {th : Option Nat} {tops : List (String × ObjId)}
    {plan : List ObjId}
    (HN : NamesOK h tops)
    (hb : buildPlan h (tops.map Prod.snd) = .ok plan) :
    renderScopedStmts h th tops = .ok (
      mkBody h th tops plan true ++ (genNames tops plan).map Stmt.sdel ++ [Stmt.cleanup],
      sidecarOf h th plan) ∧
    execSource (sidecarOf h th plan)
      (mkBody h th tops plan true ++ (genNames tops plan).map Stmt.sdel ++ [Stmt.cleanup])
      = .ok ⟨newHeap h plan, plan.length, finalNs tops plan⟩ := by
  obtain ⟨hord, hnd, hmemtops, hkeys⟩ := buildPlan_ok_props hb
  constructor
  · rw [renderScopedStmts, hb]
    rfl
  · rw [execSource]
    have hnsI : ∀ x ∈ plan, nameOf tops plan x ∉ (initES.ns).map Prod.fst := by
      intro x hx hm
      have hns := node_ne_special HN x hx
      rcases (by simpa [initES] using hm :
        nameOf tops plan x = "__builtins__" ∨ nameOf tops plan x = "_arrays") with he | he
      · exact hns.1 he
      · exact hns.2 he
    have s2 : execStmts (sidecarOf h th plan) initES (mkBody h th tops plan true)
        = .ok ⟨newHeap h plan, plan.length, initES.ns ++ planNs tops plan plan⟩ := by
      have hbody := @execBody_scoped h th tops plan _ HN hord hnd hkeys hnsI plan [] rfl
      rw [show planNs tops plan ([] : List ObjId) = [] from rfl, List.append_nil] at hbody
      exact hbody
    have s4 : execStmts (sidecarOf h th plan)
        (⟨newHeap h plan, plan.length, initES.ns ++ planNs tops plan plan⟩ : ES)
        ((genNames tops plan).map Stmt.sdel)
        = .ok ⟨newHeap h plan, plan.length,
            List.foldl nsDel (initES.ns ++ planNs tops plan plan)
              (genNames tops plan)⟩ := execDels _ _
    have hnsfinal : nsDel (nsDel
        (List.foldl nsDel (initES.ns ++ planNs tops plan plan) (genNames tops plan))
        "__builtins__") "_arrays" = finalNs tops plan := by
      have e1 : nsDel (nsDel
          (List.foldl nsDel (initES.ns ++ planNs tops plan plan) (genNames tops plan))
          "__builtins__") "_arrays"
          = List.foldl nsDel (initES.ns ++ planNs tops plan plan)
              (genNames tops plan ++ ["__builtins__", "_arrays"]) := by
        rw [List.foldl_append]
        rfl
      rw [e1]
      have hnodup := full_ns_nodup_scoped (h := h) HN hnd
      rw [foldl_nsDel_filter _ _ (by exact hnodup)]
      rw [List.filter_append]
      have p1 : (initES.ns).filter
          (fun p => !((genNames tops plan ++ ["__builtins__", "_arrays"]).contains p.1))
          = [] := by
        show List.filter _ [("__builtins__", Bnd.special), ("_arrays", Bnd.special)] = []
        have hmb : "__builtins__" ∈ genNames tops plan ++ ["__builtins__", "_arrays"] :=
          List.mem_append_right _ (by simp)
        have hma : "_arrays" ∈ genNames tops plan ++ ["__builtins__", "_arrays"] :=
          List.mem_append_right _ (by simp)
        rw [List.filter_cons, List.filter_cons]
        simp [hmb, hma]
      have p3 := planNs_filter_scoped (h := h) HN plan (fun x hx => hx)
      rw [p1, p3]
      rw [finalNs]
      rfl
    rw [List.append_assoc]
    rw [execStmts_append_ok s2, execStmts_append_ok s4]
    rw [execStmts_cons_ok (show execStmt (sidecarOf h th plan)
      (⟨newHeap h plan, plan.length,
        List.foldl nsDel (initES.ns ++ planNs tops plan plan) (genNames tops plan)⟩ : ES)
      Stmt.cleanup
      = Except.ok ⟨newHeap h plan, plan.length, nsDel (nsDel
          (List.foldl nsDel (initES.ns ++ planNs tops plan plan) (genNames tops plan))
          "__builtins__") "_arrays"⟩ from rfl), execStmts_nil]
    rw [show (nsDel (nsDel
        (List.foldl nsDel (initES.ns ++ planNs tops plan plan) (genNames tops plan))
        "__builtins__") "_arrays") = finalNs tops plan from hnsfinal]

theorem finalNs_eq_filter {h : Heap} {tops : List (String × ObjId)} {plan : List ObjId}
    (HN : NamesOK h tops) :
    finalNs tops plan = (planNs tops plan plan).filter
      (fun p => !((delList h tops plan).contains p.1)) := by
  rw [finalNs]
  exact (planNs_filter HN plan (fun x hx => hx)).symm

theorem finalNs_nodup {h : Heap} {tops : List (String × ObjId)} {plan : List ObjId}
    (HN : NamesOK h tops) (hnd : plan.Nodup) :
    ((finalNs tops plan).map Prod.fst).Nodup := by
  rw [finalNs_eq_filter HN]
  exact filter_fst_nodup (planNs_nodup HN hnd (fun x hx => hx)) _

theorem finalNs_mem {h : Heap} {tops : List (String × ObjId)} {plan : List ObjId}
    (HN : NamesOK h tops) {p : String × ObjId} (hp : p ∈ tops) (hpl : p.2 ∈ plan) :
    (p.1, Bnd.val (plan.indexOf p.2)) ∈ finalNs tops plan := by
  rw [finalNs]
  apply List.mem_filterMap.mpr
  refine ⟨p.2, hpl, ?_⟩
  rw [find?_top_of_mem HN.2.1 (show (p.1, p.2) ∈ tops by simpa using hp)]
  rfl

theorem lookup_finalNs {h : Heap} {tops : List (String × ObjId)} {plan : List ObjId}
    (HN : NamesOK h tops) (hnd : plan.Nodup) {p : String × ObjId}
    (hp : p ∈ tops) (hpl : p.2 ∈ plan) :
    List.lookup p.1 (finalNs tops plan) = some (Bnd.val (plan.indexOf p.2)) :=
  lookup_of_mem_nodup (finalNs_nodup HN hnd) (finalNs_mem HN hp hpl)

theorem finalNs_shape {tops : List (String × ObjId)} {plan : List ObjId}
    {nb : String × Bnd} (hnb : nb ∈ finalNs tops plan) :
    ∃ p ∈ tops, nb.1 = p.1 ∧ nb.2 = Bnd.val (plan.indexOf p.2) := by
  rw [finalNs] at hnb
  obtain ⟨i, hi, hfi⟩ := List.mem_filterMap.mp hnb
  cases hf : tops.find? (fun q => q.2 == i) with
  | none => rw [hf] at hfi; exact absurd hfi (by simp)
  | some p =>
    rw [hf] at hfi
    simp only [Option.map_some', Option.some.injEq] at hfi
    have hpm := List.mem_of_find?_eq_some hf
    have hpi : p.2 = i := by simpa using List.find?_some hf
    refine ⟨p, hpm, ?_, ?_⟩
    · rw [← hfi]
    · rw [← hfi, hpi]

/-- C1 (round-trip with sharing): rendering an archive flat and executing
the resulting source on its own sidecar succeeds, and for every top-level
binding the reconstructed object unfolds to the same tree as the original
at every depth; shared references are preserved as identity: a list
node's reconstruction holds exactly the plan positions of its original
element identities, so two occurrences of the same original object become
two occurrences of the same reconstructed object. -/
theorem round_trip_sharing {h : Heap} {th : Option Nat} {tops : List (String × ObjId)}
    {plan : List ObjId}
    (HN : NamesOK h tops) (HA : AliasesOK h plan)
    (hb : buildPlan h (tops.map Prod.snd) = .ok plan) :
    ∃ stmts : List Stmt, renderFlatStmts h th tops = .ok (stmts, sidecarOf h th plan) ∧
    ∃ es : ES, execSource (sidecarOf h th plan) stmts = .ok es ∧
      (∀ p ∈ tops, List.lookup p.1 es.ns = some (Bnd.val (plan.indexOf p.2)) ∧
        ∀ fuel, unfoldObj es.heap fuel (plan.indexOf p.2) = unfoldObj h fuel p.2) ∧
      (∀ i ∈ plan, ∀ es0 : List ObjId, h.find? i = some (.olist es0) →
        es.heap.find? (plan.indexOf i)
          = some (.olist (es0.map (fun c => plan.indexOf c)))) := by
  obtain ⟨hord, hnd, hmemtops, hkeys⟩ := buildPlan_ok_props hb
  obtain ⟨hrender, hexec⟩ := renderFlat_exec HN HA hb
  refine ⟨_, hrender, ⟨newHeap h plan, plan.length, finalNs tops plan⟩, hexec, ?_, ?_⟩
  · intro p hp
    have hpl : p.2 ∈ plan := hmemtops p.2 (List.mem_map.mpr ⟨p, hp, rfl⟩)
    refine ⟨lookup_finalNs HN hnd hp hpl, ?_⟩
    intro fuel
    exact (unfold_newHeap hord hkeys fuel p.2 hpl).symm
  · intro i hi es0 hfi
    have hlt : plan.indexOf i < plan.length := List.indexOf_lt_length.mpr hi
    have hget : plan.get ⟨plan.indexOf i, hlt⟩ = i := List.getElem_indexOf hlt
    show (newHeap h plan).find? (plan.indexOf i) = _
    rw [newHeap_find? hlt, hget, hfi]
    rfl

theorem round_trip_sharing_witness :
    (NamesOK exHeap exTops ∧ AliasesOK exHeap exPlan ∧
      buildPlan exHeap (exTops.map Prod.snd) = .ok exPlan) ∧
    (∃ stmts : List Stmt,
      renderFlatStmts exHeap none exTops = .ok (stmts, sidecarOf exHeap none exPlan) ∧
    ∃ es : ES, execSource (sidecarOf exHeap none exPlan) stmts = .ok es ∧
      (∀ p ∈ exTops, List.lookup p.1 es.ns = some (Bnd.val (exPlan.indexOf p.2)) ∧
        ∀ fuel, unfoldObj es.heap fuel (exPlan.indexOf p.2) = unfoldObj exHeap fuel p.2) ∧
      (∀ i ∈ exPlan, ∀ es0 : List ObjId, exHeap.find? i = some (.olist es0) →
        es.heap.find? (exPlan.indexOf i)
          = some (.olist (es0.map (fun c => exPlan.indexOf c))))) :=
  ⟨⟨by decide, by decide, by rfl⟩, round_trip_sharing (by decide) (by decide) (by rfl)⟩

/-- C3 (cycle rejection): for a closed graph whose top-level identities
are bound, the builder fails with `Cyclic` exactly when some inserted
value reaches a reference cycle, and in that case neither rendering mode
emits any source. -/
theorem cycle_rejected {h : Heap} {tops : List (String × ObjId)}
    (hclosed : ClosedHeap h) (htk : ∀ p ∈ tops, p.2 ∈ h.keys) :
    (buildPlan h (tops.map Prod.snd) = .error .cyclic ↔
      ∃ p ∈ tops, ∃ z, Reaches h p.2 z ∧ CycleAt h z) ∧
    ∀ th, buildPlan h (tops.map Prod.snd) = .error .cyclic →
      renderFlatStmts h th tops = .error .cyclic ∧
      renderScopedStmts h th tops = .error .cyclic := by
  have htk2 : ∀ t ∈ tops.map Prod.snd, t ∈ h.keys := by
    intro t ht
    obtain ⟨p, hp, hpe⟩ := List.mem_map.mp ht
    rw [← hpe]
    exact htk p hp
  constructor
  · rw [buildPlan_cyclic_iff hclosed htk2]
    constructor
    · rintro ⟨r, hr, z, hrz, hcz⟩
      obtain ⟨p, hp, hpe⟩ := List.mem_map.mp hr
      refine ⟨p, hp, z, ?_, hcz⟩
      rw [hpe]
      exact hrz
    · rintro ⟨p, hp, z, hrz, hcz⟩
      exact ⟨p.2, List.mem_map.mpr ⟨p, hp, rfl⟩, z, hrz, hcz⟩
  · intro th hb
    constructor
    · rw [renderFlatStmts, hb]
      rfl
    · rw [renderScopedStmts, hb]
      rfl

theorem cycle_rejected_witness :
    (ClosedHeap cycHeap ∧ ∀ p ∈ cycTops, p.2 ∈ cycHeap.keys) ∧
    ((buildPlan cycHeap (cycTops.map Prod.snd) = .error .cyclic ↔
      ∃ p ∈ cycTops, ∃ z, Reaches cycHeap p.2 z ∧ CycleAt cycHeap z) ∧
    ∀ th, buildPlan cycHeap (cycTops.map Prod.snd) = .error .cyclic →
      renderFlatStmts cycHeap th cycTops = .error .cyclic ∧
      renderScopedStmts cycHeap th cycTops = .error .cyclic) :=
  ⟨⟨by decide, by decide⟩, cycle_rejected (by decide) (by decide)⟩

/-- C4 (topological ordering): the builder's emission plan — a
depth-first walk from each top-level node in insertion order — lists
every node exactly once, contains every top-level node, and places every
referenced node strictly before each node referencing it, so every
definition precedes its uses in the emitted source. -/
theorem topological_order {h : Heap} {tops plan : List ObjId}
    (hb : buildPlan h tops = .ok plan) :
    plan.Nodup ∧ (∀ t ∈ tops, t ∈ plan) ∧ ordered h plan ∧
    ∀ (p : Nat) (x : ObjId), plan[p]? = some x → ∀ c, edge h x c →
      ∃ q : Nat, q < p ∧ plan[q]? = some c := by
  obtain ⟨hord, hnd, hmem, _⟩ := buildPlan_ok_props hb
  exact ⟨hnd, hmem, hord, hord⟩

theorem topological_order_witness :
    buildPlan exHeap [10, 11, 13] = .ok exPlan ∧
    (exPlan.Nodup ∧ (∀ t ∈ [10, 11, 13], t ∈ exPlan) ∧ ordered exHeap exPlan ∧
    ∀ (p : Nat) (x : ObjId), exPlan[p]? = some x → ∀ c, edge exHeap x c →
      ∃ q : Nat, q < p ∧ exPlan[q]? = some c) :=
  ⟨by rfl, topological_order (by rfl)⟩

/-- C2 (array threshold and sidecar): at an array node of the plan, a
large array — element count at least the threshold — is emitted as the
sidecar subscript whose key counts the sidecar entries registered by
earlier plan nodes (dense, zero-based, first-encounter order), printing
as a subscript of the form array_k, and the sidecar holds the payload at
exactly that position; a small array is emitted as an inline literal and
registers nothing. -/
theorem array_threshold_sidecar {h : Heap} {th : Option Nat}
    {tops : List (String × ObjId)} {plan pre rest : List ObjId} {i : ObjId}
    {es : List Int}
    (hsplit : plan = pre ++ i :: rest) (hfind : h.find? i = some (.oarr es)) :
    (isLarge th es.length = true →
      bodyAux h th tops plan false (scCount h th pre) (i :: rest)
        = Stmt.assign (nameOf tops plan i) (.earrRef (scCount h th pre))
          :: bodyAux h th tops plan false (scCount h th pre + 1) rest ∧
      (sidecarOf h th plan)[scCount h th pre]? = some es ∧
      printExpr (.earrRef (scCount h th pre))
        = "_arrays[\x27array_" ++ toString (scCount h th pre) ++ "\x27]") ∧
    (isLarge th es.length = false →
      bodyAux h th tops plan false (scCount h th pre) (i :: rest)
        = Stmt.assign (nameOf tops plan i) (.earr es)
          :: bodyAux h th tops plan false (scCount h th pre) rest) ∧
    scCount h th (pre ++ [i])
      = scCount h th pre + (if isLarge th es.length then 1 else 0) := by
  refine ⟨?_, ?_, ?_⟩
  · intro hl
    refine ⟨?_, sidecar_getElem hsplit hfind hl, rfl⟩
    rw [bodyAux, hfind]
    simp only [repNode, isLargeArr, hl, reduceIte, Bool.false_eq_true,
      List.cons_append, List.nil_append]
  · intro hl
    rw [bodyAux, hfind]
    simp only [repNode, isLargeArr, hl, reduceIte, Bool.false_eq_true,
      List.cons_append, List.nil_append, Nat.add_zero]
  · exact scCount_snoc hfind

theorem array_threshold_sidecar_witness :
    ((([0, 1] : List ObjId) = [] ++ 0 :: [1]) ∧
      arrHeap.find? 0 = some (.oarr [1, 2, 3])) ∧
    ((isLarge (some 2) ([1, 2, 3] : List Int).length = true →
      bodyAux arrHeap (some 2) arrTops [0, 1] false (scCount arrHeap (some 2) []) (0 :: [1])
        = Stmt.assign (nameOf arrTops [0, 1] 0) (.earrRef (scCount arrHeap (some 2) []))
          :: bodyAux arrHeap (some 2) arrTops [0, 1] false
              (scCount arrHeap (some 2) [] + 1) [1] ∧
      (sidecarOf arrHeap (some 2) [0, 1])[scCount arrHeap (some 2) []]? = some [1, 2, 3] ∧
      printExpr (.earrRef (scCount arrHeap (some 2) []))
        = "_arrays[\x27array_" ++ toString (scCount arrHeap (some 2) []) ++ "\x27]") ∧
    (isLarge (some 2) ([1, 2, 3] : List Int).length = false →
      bodyAux arrHeap (some 2) arrTops [0, 1] false (scCount arrHeap (some 2) []) (0 :: [1])
        = Stmt.assign (nameOf arrTops [0, 1] 0) (.earr [1, 2, 3])
          :: bodyAux arrHeap (some 2) arrTops [0, 1] false (scCount arrHeap (some 2) []) [1]) ∧
    scCount arrHeap (some 2) ([] ++ [0])
      = scCount arrHeap (some 2) []
        + (if isLarge (some 2) ([1, 2, 3] : List Int).length then 1 else 0)) :=
  ⟨⟨rfl, rfl⟩, array_threshold_sidecar rfl rfl⟩

/-- C5 (flat-mode hygiene): a flat rendering hoists all imports to the
top, dels every import alias and every generated intermediate name after
the assignments, ends with the literal guarded cleanup text, and
executing the module in a fresh namespace binds exactly the user-visible
top-level names — no stray names leak. -/
theorem flat_hygiene {h : Heap} {th : Option Nat} {tops : List (String × ObjId)}
    {plan : List ObjId}
    (HN : NamesOK h tops) (HA : AliasesOK h plan)
    (hb : buildPlan h (tops.map Prod.snd) = .ok plan) :
    ∃ stmts : List Stmt, renderFlatStmts h th tops = .ok (stmts, sidecarOf h th plan) ∧
      stmts = (importsOf h plan).map (fun r => Stmt.fromImport r.1 r.2.1 r.2.2)
        ++ mkBody h th tops plan false
        ++ (importsOf h plan).map (fun r => Stmt.sdel r.2.2)
        ++ (genNames tops plan).map Stmt.sdel
        ++ [Stmt.cleanup] ∧
      (∀ i ∈ plan, tops.find? (fun p => p.2 == i) = none →
        Stmt.sdel (nameOf tops plan i) ∈ stmts) ∧
      stmts.getLast? = some Stmt.cleanup ∧
      printStmt Stmt.cleanup = "try: del __builtins__, _arrays\nexcept NameError: pass" ∧
      ∃ es : ES, execSource (sidecarOf h th plan) stmts = .ok es ∧
        (∀ p ∈ tops, p.1 ∈ es.ns.map Prod.fst) ∧
        ∀ nb ∈ es.ns, ∃ p ∈ tops, nb.1 = p.1 := by
  obtain ⟨hord, hnd, hmemtops, hkeys⟩ := buildPlan_ok_props hb
  obtain ⟨hrender, hexec⟩ := renderFlat_exec HN HA hb
  refine ⟨_, hrender, rfl, ?_, List.getLast?_concat _, rfl,
    ⟨newHeap h plan, plan.length, finalNs tops plan⟩, hexec, ?_, ?_⟩
  · intro i hi hfi
    have hmem : Stmt.sdel (nameOf tops plan i) ∈ (genNames tops plan).map Stmt.sdel :=
      List.mem_map.mpr ⟨_, mem_genNames hi hfi, rfl⟩
    exact List.mem_append.mpr (Or.inl (List.mem_append.mpr (Or.inr hmem)))
  · intro p hp
    have hpl : p.2 ∈ plan := hmemtops p.2 (List.mem_map.mpr ⟨p, hp, rfl⟩)
    exact List.mem_map.mpr ⟨(p.1, Bnd.val (plan.indexOf p.2)), finalNs_mem HN hp hpl, rfl⟩
  · intro nb hnb
    obtain ⟨p, hp, he1, _⟩ := finalNs_shape hnb
    exact ⟨p, hp, he1⟩

theorem flat_hygiene_witness :
    (NamesOK exHeap exTops ∧ AliasesOK exHeap exPlan ∧
      buildPlan exHeap (exTops.map Prod.snd) = .ok exPlan) ∧
    (∃ stmts : List Stmt,
      renderFlatStmts exHeap none exTops = .ok (stmts, sidecarOf exHeap none exPlan) ∧
      stmts = (importsOf exHeap exPlan).map (fun r => Stmt.fromImport r.1 r.2.1 r.2.2)
        ++ mkBody exHeap none exTops exPlan false
        ++ (importsOf exHeap exPlan).map (fun r => Stmt.sdel r.2.2)
        ++ (genNames exTops exPlan).map Stmt.sdel
        ++ [Stmt.cleanup] ∧
      (∀ i ∈ exPlan, exTops.find? (fun p => p.2 == i) = none →
        Stmt.sdel (nameOf exTops exPlan i) ∈ stmts) ∧
      stmts.getLast? = some Stmt.cleanup ∧
      printStmt Stmt.cleanup = "try: del __builtins__, _arrays\nexcept NameError: pass" ∧
      ∃ es : ES, execSource (sidecarOf exHeap none exPlan) stmts = .ok es ∧
        (∀ p ∈ exTops, p.1 ∈ es.ns.map Prod.fst) ∧
        ∀ nb ∈ es.ns, ∃ p ∈ exTops, nb.1 = p.1) :=
  ⟨⟨by decide, by decide, by rfl⟩, flat_hygiene (by decide) (by decide) (by rfl)⟩

/-- C6 (flat/scoped equivalence): for the same archive the flat and the
scoped renderings succeed together, share the sidecar, and executing
either module yields the same final state — the canonical heap with the
user-visible top-level bindings. -/
theorem flat_scoped_equiv {h : Heap} {th : Option Nat} {tops : List (String × ObjId)}
    {plan : List ObjId}
    (HN : NamesOK h tops) (HA : AliasesOK h plan)
    (hb : buildPlan h (tops.map Prod.snd) = .ok plan) :
    ∃ fl sc : List Stmt × List (List Int),
      renderFlatStmts h th tops = .ok fl ∧
      renderScopedStmts h th tops = .ok sc ∧
      fl.2 = sc.2 ∧
      execSource fl.2 fl.1 = execSource sc.2 sc.1 ∧
      execSource fl.2 fl.1
        = .ok ⟨newHeap h plan, plan.length, finalNs tops plan⟩ := by
  obtain ⟨hrf, hef⟩ := renderFlat_exec HN HA hb
  obtain ⟨hrs, hes⟩ := renderScoped_exec HN hb
  refine ⟨_, _, hrf, hrs, rfl, ?_, hef⟩
  rw [show (execSource (sidecarOf h th plan)
    (mkBody h th tops plan true ++ (genNames tops plan).map Stmt.sdel ++ [Stmt.cleanup]))
    = .ok (⟨newHeap h plan, plan.length, finalNs tops plan⟩ : ES) from hes, hef]

theorem flat_scoped_equiv_witness :
    (NamesOK exHeap exTops ∧ AliasesOK exHeap exPlan ∧
      buildPlan exHeap (exTops.map Prod.snd) = .ok exPlan) ∧
    (∃ fl sc : List Stmt × List (List Int),
      renderFlatStmts exHeap none exTops = .ok fl ∧
      renderScopedStmts exHeap none exTops = .ok sc ∧
      fl.2 = sc.2 ∧
      execSource fl.2 fl.1 = execSource sc.2 sc.1 ∧
      execSource fl.2 fl.1
        = .ok ⟨newHeap exHeap exPlan, exPlan.length, finalNs exTops exPlan⟩) :=
  ⟨⟨by decide, by decide, by rfl⟩, flat_scoped_equiv (by decide) (by decide) (by rfl)⟩

/-- C7 (idempotence and determinism): rendering is a pure function of the
archive mode, the array threshold, the insertion-ordered bindings, and
the heap — two renders of one archive are byte-identical, and two
archives agreeing on those inputs render byte-identically, whatever their
remaining configuration. -/
theorem render_deterministic (ar1 ar2 : Archive) (h : Heap)
    (hm : ar1.scopedMode = ar2.scopedMode)
    (ht : ar1.array_threshold = ar2.array_threshold)
    (ha : ar1.arch = ar2.arch) :
    ar1.toSource h = ar1.toSource h ∧
    ar1.toSource h = ar2.toSource h ∧
    ar1.sidecar h = ar2.sidecar h := by
  refine ⟨rfl, ?_, ?_⟩
  · rw [Archive.toSource, Archive.toSource, Archive.renderStmts, Archive.renderStmts,
      hm, ht, ha]
  · rw [Archive.sidecar, Archive.sidecar, Archive.renderStmts, Archive.renderStmts,
      hm, ht, ha]

theorem render_deterministic_witness :
    (exArchive1.scopedMode = exArchive2.scopedMode ∧
      exArchive1.array_threshold = exArchive2.array_threshold ∧
      exArchive1.arch = exArchive2.arch) ∧
    (exArchive1.toSource exHeap = exArchive1.toSource exHeap ∧
     exArchive1.toSource exHeap = exArchive2.toSource exHeap ∧
     exArchive1.sidecar exHeap = exArchive2.sidecar exHeap) :=
  ⟨⟨rfl, rfl, rfl⟩, render_deterministic exArchive1 exArchive2 exHeap rfl rfl rfl⟩

/-- C8 (pickle protocol): a user object whose getnewargs tuple holds the
string a and the integer 3 and whose getstate maps x to 1, with setstate
defined, is emitted as a new-allocation expression followed by a
setstate call printing in the documented forms; the representation is
independent of the legacy getinitargs flag, which is ignored; and the
execution semantics of the new-allocation expression allocates the bare
object directly — no constructor is ever invoked, state being applied
only by the following statement. -/
theorem pickle_protocol (th : Option Nat) (nm : String) (cn : ObjId → String)
    (sc : Nat) (m cls : String) (hg : Bool) :
    repNode th nm cn sc (.ouser m cls [.astr "a", .aint 3] [("x", .aint 1)] true hg)
      = (.enew m cls [.astr "a", .aint 3], [.setst nm [("x", .aint 1)]]) ∧
    (∀ (args : List Atom) (st : List (String × Atom)) (hs hg1 hg2 : Bool),
      repNode th nm cn sc (.ouser m cls args st hs hg1)
        = repNode th nm cn sc (.ouser m cls args st hs hg2)) ∧
    printExpr (.enew m cls [.astr "a", .aint 3])
      = cls ++ ".__new__(" ++ String.intercalate ", "
          (cls :: ([Atom.astr "a", Atom.aint 3].map printAtom)) ++ ")" ∧
    printStmt (Stmt.setst nm [("x", .aint 1)])
      = nm ++ ".__setstate__(" ++ printDict [("x", .aint 1)] ++ ")" ∧
    ∀ (A : List (List Int)) (es : ES) (args : List Atom),
      evalExpr A es (.enew m cls args) = .ok (es.alloc (.ouser m cls args [] false false)) :=
  ⟨rfl, fun _ _ _ _ _ => rfl, rfl, rfl, fun _ _ _ => rfl⟩

/-- C9 (single-item import): saving an archive holding exactly one
top-level binding in single-item mode appends the module-table
replacement to the flat rendering, and importing the saved module yields
the stored object itself — unfolding to the same tree as the original at
every depth — rather than a module wrapper. -/
theorem single_item_import {h : Heap} {th : Option Nat} {n : String} {i : ObjId}
    {plan : List ObjId}
    (HN : NamesOK h [(n, i)]) (HA : AliasesOK h plan)
    (hb : buildPlan h [i] = .ok plan) :
    ∃ stmts : List Stmt,
      renderFlatStmts h th [(n, i)] = .ok (stmts, sidecarOf h th plan) ∧
      saveStmts true h th [(n, i)]
        = .ok (stmts ++ [Stmt.moduleRep n], sidecarOf h th plan) ∧
      importSaved (sidecarOf h th plan) (stmts ++ [Stmt.moduleRep n])
        = .ok (newHeap h plan, .objResult (plan.indexOf i)) ∧
      ∀ fuel, unfoldObj (newHeap h plan) fuel (plan.indexOf i) = unfoldObj h fuel i := by
  have hb2 : buildPlan h ([(n, i)].map Prod.snd) = .ok plan := hb
  obtain ⟨hord, hnd, hmemtops, hkeys⟩ := buildPlan_ok_props hb2
  obtain ⟨hrender, hexec⟩ := @renderFlat_exec h th [(n, i)] plan HN HA hb2
  have hpl : i ∈ plan := hmemtops i (by simp)
  refine ⟨_, hrender, ?_, ?_, ?_⟩
  · rw [saveStmts, hrender]
    rfl
  · have hexec2 : execSource (sidecarOf h th plan)
        ((importsOf h plan).map (fun r => Stmt.fromImport r.1 r.2.1 r.2.2)
          ++ mkBody h th [(n, i)] plan false
          ++ (importsOf h plan).map (fun r => Stmt.sdel r.2.2)
          ++ (genNames [(n, i)] plan).map Stmt.sdel
          ++ [Stmt.cleanup] ++ [Stmt.moduleRep n])
        = .ok ⟨newHeap h plan, plan.length, finalNs [(n, i)] plan⟩ := by
      rw [execSource, execStmts_append_ok hexec]
      rfl
    have hlook : List.lookup n (finalNs [(n, i)] plan)
        = some (Bnd.val (plan.indexOf i)) :=
      lookup_finalNs HN hnd (p := (n, i)) (by simp) hpl
    rw [importSaved, hexec2, List.getLast?_concat]
    show (do
      let j ← lookupVal (finalNs [(n, i)] plan) n
      Except.ok ((newHeap h plan : Heap), ImportResult.objResult j)) = _
    rw [lookupVal, hlook]
    rfl
  · intro fuel
    exact (unfold_newHeap hord hkeys fuel i hpl).symm

theorem single_item_import_witness :
    (NamesOK oneHeap [("b", (4 : ObjId))] ∧ AliasesOK oneHeap [4] ∧
      buildPlan oneHeap [4] = .ok [4]) ∧
    (∃ stmts : List Stmt,
      renderFlatStmts oneHeap none [("b", 4)] = .ok (stmts, sidecarOf oneHeap none [4]) ∧
      saveStmts true oneHeap none [("b", 4)]
        = .ok (stmts ++ [Stmt.moduleRep "b"], sidecarOf oneHeap none [4]) ∧
      importSaved (sidecarOf oneHeap none [4]) (stmts ++ [Stmt.moduleRep "b"])
        = .ok (newHeap oneHeap [4], .objResult (([4] : List ObjId).indexOf 4)) ∧
      ∀ fuel, unfoldObj (newHeap oneHeap [4]) fuel (([4] : List ObjId).indexOf 4)
        = unfoldObj oneHeap fuel 4) :=
  ⟨⟨by decide, by decide, by rfl⟩, single_item_import (by decide) (by decide) (by rfl)⟩

/-- C10 (save name default): in single-item mode with exactly one
binding, save without an explicit name succeeds and uses the single
binding's name as the module name. -/
theorem save_default_name {ar : Archive} {h : Heap} {n : String} {i : ObjId}
    (hsingle : ar.single_item_mode = true) (harch : ar.arch = [(n, i)]) :
    saveName ar.single_item_mode ar.arch none = .ok n ∧
    ∀ r, ar.save h none = .ok r → r.1 = n := by
  constructor
  · rw [hsingle, harch]
    rfl
  · intro r hr
    rw [Archive.save, hsingle, harch] at hr
    cases hs : saveStmts true h ar.array_threshold [(n, i)] with
    | error e =>
      rw [hs] at hr
      exact Except.noConfusion hr
    | ok rr =>
      rw [hs] at hr
      have h2 : (n, rr) = r := Except.ok.inj hr
      rw [← h2]

theorem save_default_name_witness :
    (exArchive3.single_item_mode = true ∧ exArchive3.arch = [("b", (4 : ObjId))]) ∧
    (saveName exArchive3.single_item_mode exArchive3.arch none = .ok "b" ∧
     ∀ r, exArchive3.save oneHeap none = .ok r → r.1 = "b") :=
  ⟨⟨rfl, rfl⟩, save_default_name rfl rfl⟩

end Persist
